import Mathlib

/-!
Verification of the yaml-rs load/dump engine specification.

The repository ships only its test suite under version control here; the
engine itself (scanner, parser, composer, resolver, emitter, error
reporter) is modelled from the specification document, faithful to its
words and to the concrete input/output pairs fixed by the tests.  All
definitions are executable; theorems at the end of the file settle the
frozen claims.
-/

namespace YamlRs

/-- Decimal digit character for a value below ten. -/
def digitChar (n : Nat) : Char := Char.ofNat (48 + n)

/-- Numeric value of a decimal digit character. -/
def charVal (c : Char) : Nat := c.toNat - 48

/-- Characters allowed after the first character of a plain (unquoted)
scalar chosen by the emitter: alphanumerics, dash and underscore. -/
def isPlainChar (c : Char) : Bool := c.isAlphanum || c == '-' || c == '_'

/-- Decimal digits of a natural number, most significant first, with an
explicit fuel argument so the definition is structural and reduces in the
kernel. -/
def natDigitsF : Nat → Nat → List Char
  | 0, _ => []
  | fuel + 1, n => if n < 10 then [digitChar n] else natDigitsF fuel (n / 10) ++ [digitChar (n % 10)]

/-- Decimal digits of a natural number, most significant first. -/
def natDigits (n : Nat) : List Char := natDigitsF (n + 1) n

/-- Modelled from the spec: the emitter's text for an integer scalar
("arbitrary-precision integers emit with full digit sequences and correct
sign"); the engine's integer formatting code is not in the repository
snapshot. -/
def intChars : Int → List Char
  | .ofNat n => natDigits n
  | .negSucc n => '-' :: natDigits (n + 1)

/-- Value of a digit list interpreted in base ten, with an accumulator. -/
def digitsValA : List Char → Nat → Nat
  | [], acc => acc
  | c :: cs, acc => digitsValA cs (acc * 10 + charVal c)

/-- Parse a nonempty all-digit character list as a natural number. -/
def parseNatChars (cs : List Char) : Option Nat :=
  if cs.isEmpty then none
  else if cs.all Char.isDigit then some (digitsValA cs 0) else none

/-- Modelled from the spec: the resolver's integer rule ("int (decimal,
with optional sign; ... arbitrary-precision ...)"); the engine's resolver
code is not in the repository snapshot. -/
def parseIntChars : List Char → Option Int
  | [] => none
  | c :: rest =>
    if c == '-' then (parseNatChars rest).map (fun n => -(n : Int))
    else if c == '+' then (parseNatChars rest).map Int.ofNat
    else (parseNatChars (c :: rest)).map Int.ofNat

/-- Lower-case hexadecimal digit character for a value below sixteen. -/
def hexChar (n : Nat) : Char := if n < 10 then digitChar n else Char.ofNat (87 + n)

/-- Recognize a lower-case hexadecimal digit character. -/
def isHexChar (c : Char) : Bool := c.isDigit || ('a' ≤ c && c ≤ 'f')

/-- Numeric value of a lower-case hexadecimal digit character. -/
def hexVal (c : Char) : Nat := if c.isDigit then c.toNat - 48 else c.toNat - 87

/-- Modelled from the spec: the emitter's double-quoted escaping for one
character (escaped double-quoted scalars; escape tables per the YAML spec
including Unicode escapes); the engine's emitter code is not in the
repository snapshot. -/
def escChar (c : Char) : List Char :=
  if c == '\\' then ['\\', '\\']
  else if c == '"' then ['\\', '"']
  else if c == '\n' then ['\\', 'n']
  else if c == '\t' then ['\\', 't']
  else if c == '\r' then ['\\', 'r']
  else if c.toNat < 32 then
    ['\\', 'u', '0', '0', hexChar (c.toNat / 16), hexChar (c.toNat % 16)]
  else [c]

/-- Escape every character of a double-quoted scalar body. -/
def escAll : List Char → List Char
  | [] => []
  | c :: cs => escChar c ++ escAll cs

/-- Modelled from the spec: the scanner's double-quoted scalar body scan
(quoted-scalar escape decoding); returns the decoded body and the input
remaining after the closing quote, or fails on an unterminated or
malformed quoted scalar.  The engine's scanner code is not in the
repository snapshot. -/
def scanQ : List Char → Option (List Char × List Char)
  | [] => none
  | c :: rest =>
    if c == '"' then some ([], rest)
    else if c == '\\' then
      match rest with
      | [] => none
      | e :: rest2 =>
        if e == '\\' then (scanQ rest2).map (fun p => ('\\' :: p.1, p.2))
        else if e == '"' then (scanQ rest2).map (fun p => ('"' :: p.1, p.2))
        else if e == 'n' then (scanQ rest2).map (fun p => ('\n' :: p.1, p.2))
        else if e == 't' then (scanQ rest2).map (fun p => ('\t' :: p.1, p.2))
        else if e == 'r' then (scanQ rest2).map (fun p => ('\r' :: p.1, p.2))
        else if e == 'u' then
          match rest2 with
          | a :: b :: c2 :: d :: rest3 =>
            if isHexChar a && isHexChar b && isHexChar c2 && isHexChar d then
              (scanQ rest3).map (fun p =>
                (Char.ofNat (((hexVal a * 16 + hexVal b) * 16 + hexVal c2) * 16 + hexVal d) :: p.1,
                  p.2))
            else none
          | _ => none
        else none
    else if c == '\n' then none
    else (scanQ rest).map (fun p => (c :: p.1, p.2))

/-- Split a character list at newline characters; always returns at least
one (possibly empty) line. -/
def splitNl : List Char → List (List Char)
  | [] => [[]]
  | c :: cs =>
    if c == '\n' then [] :: splitNl cs
    else
      match splitNl cs with
      | [] => [[c]]
      | l :: t => (c :: l) :: t

/-- Join lines with newline characters; inverse of splitNl for lines that
contain no newline. -/
def joinNl : List (List Char) → List Char
  | [] => []
  | [l] => l
  | l :: ls => l ++ '\n' :: joinNl ls

/-- Count the leading space characters of a line. -/
def countSp : List Char → Nat
  | [] => 0
  | c :: cs => if c == ' ' then countSp cs + 1 else 0

/-- Drop the leading space characters of a line. -/
def dropSp : List Char → List Char
  | [] => []
  | c :: cs => if c == ' ' then dropSp cs else c :: cs

/-- Is the last character of the list the given character? -/
def endsWithC (t : Char) : List Char → Bool
  | [] => false
  | [c] => c == t
  | _ :: cs => endsWithC t cs

/-- Drop the last character of a list. -/
def dropLastC : List Char → List Char
  | [] => []
  | [_] => []
  | c :: cs => c :: dropLastC cs

/-- A resolved timestamp with time of day: date fields, time fields, the
microsecond value of the fractional part, and the timezone as an offset in
minutes (`none` for a naive date-time, `some 0` for UTC). -/
structure DateTimeV where
  year : Nat
  month : Nat
  day : Nat
  hour : Nat
  minute : Nat
  second : Nat
  microsec : Nat
  tz : Option Int
deriving DecidableEq, Repr

/-- Modelled from the spec: the composed native value tree ("Node: the
composed tree value — one of Null, Bool, Int, Float, String, Timestamp,
Sequence, Mapping"); the engine's data model code is not in the repository
snapshot.  This is a fragment of the spec's data model, not all of it: it
keeps mapping keys as strings (the spec allows non-scalar keys) and omits
the Float variant (binary floating point is outside the shallow
embedding), so nothing proved over it reaches the spec's full tree. -/
inductive Node where
  | null
  | bool (b : Bool)
  | int (i : Int)
  | str (s : String)
  | date (y m d : Nat)
  | datetime (d : DateTimeV)
  | seq (xs : List Node)
  | map (es : List (String × Node))

/-- The null scalar literal forms of the resolver: `~`, the empty scalar,
and the case variants of `null`. -/
def isNullTxt (cs : List Char) : Bool :=
  cs == [] || cs == ['~'] || cs == ['n', 'u', 'l', 'l'] ||
    cs == ['N', 'u', 'l', 'l'] || cs == ['N', 'U', 'L', 'L']

/-- The true literal forms of the resolver. -/
def isTrueTxt (cs : List Char) : Bool :=
  cs == ['t', 'r', 'u', 'e'] || cs == ['T', 'r', 'u', 'e'] || cs == ['T', 'R', 'U', 'E']

/-- The false literal forms of the resolver. -/
def isFalseTxt (cs : List Char) : Bool :=
  cs == ['f', 'a', 'l', 's', 'e'] || cs == ['F', 'a', 'l', 's', 'e'] ||
    cs == ['F', 'A', 'L', 'S', 'E']

/-- Count leading spaces and tabs. -/
def countSpTab : List Char → Nat
  | [] => 0
  | c :: cs => if c == ' ' || c == '\t' then countSpTab cs + 1 else 0

/-- Drop leading spaces and tabs. -/
def dropSpTab : List Char → List Char
  | [] => []
  | c :: cs => if c == ' ' || c == '\t' then dropSpTab cs else c :: cs

/-- Take the leading decimal digits of a list, returning them and the
rest. -/
def takeDigits (cs : List Char) : List Char × List Char := cs.span Char.isDigit

/-- Modelled from the spec: the timezone tail of the resolver's timestamp
rule — "optional timezone offset where only `Z`/`z`/`±HH[:MM]` forms
following at least one space or `T`/`t` are recognized — a lowercase `z`
with no preceding separator is NOT treated as a timezone marker".  Input
is what remains after seconds and fraction; the result is the offset in
minutes (`some 0` for UTC, `none` field value for naive), or failure when
the tail is not a recognized timezone form.  `Z` and the signed forms may
follow the time directly after optional spaces or tabs; the lowercase `z`
form requires at least one preceding space or tab.  The engine's resolver
code is not in the repository snapshot. -/
def parseTsTz (cs : List Char) : Option (Option Int) :=
  if cs.isEmpty then some none
  else
    let k := countSpTab cs
    match dropSpTab cs with
    | ['Z'] => some (some 0)
    | ['z'] => if 1 ≤ k then some (some 0) else none
    | s :: rest =>
      if s == '+' || s == '-' then
        let (hd, r2) := takeDigits rest
        if hd.length == 1 || hd.length == 2 then
          let h : Int := Int.ofNat (digitsValA hd 0)
          match r2 with
          | [] => some (some (if s == '-' then -(h * 60) else h * 60))
          | ':' :: m1 :: m2 :: [] =>
            if m1.isDigit && m2.isDigit then
              let mm : Int := Int.ofNat (digitsValA [m1, m2] 0)
              some (some (if s == '-' then -(h * 60 + mm) else h * 60 + mm))
            else none
          | _ => none
        else none
      else none
    | [] => none

/-- Microsecond value of the fractional-digit list of a timestamp: the
first six digits, right padded with zeros. -/
def fracVal (ds : List Char) : Nat :=
  digitsValA (ds.take 6 ++ List.replicate (6 - (ds.take 6).length) '0') 0

/-- Modelled from the spec: the time-of-day tail of the resolver's
timestamp rule (hour of one or two digits, two-digit minute and second,
optional fractional seconds, optional timezone); the engine's resolver
code is not in the repository snapshot. -/
def parseTsTime (y mo da : Nat) (cs : List Char) : Option Node :=
  let (hd, r1) := takeDigits cs
  if hd.length == 1 || hd.length == 2 then
    match r1 with
    | ':' :: r2 =>
      let (mid, r3) := takeDigits r2
      if mid.length == 2 then
        match r3 with
        | ':' :: r4 =>
          let (sd, r5) := takeDigits r4
          if sd.length == 2 then
            let withTz (micro : Nat) (r : List Char) : Option Node :=
              match parseTsTz r with
              | some tz =>
                some (.datetime ⟨y, mo, da, digitsValA hd 0, digitsValA mid 0,
                  digitsValA sd 0, micro, tz⟩)
              | none => none
            match r5 with
            | '.' :: r6 =>
              let (fd, r7) := takeDigits r6
              withTz (fracVal fd) r7
            | r6 => withTz 0 r6
          else none
        | _ => none
      else none
    | _ => none
  else none

/-- Modelled from the spec: the resolver's timestamp rule
("ISO-8601-flavored pattern: `YYYY-MM-DD` date-only, or full date-time
with optional fractional seconds and optional timezone offset", with the
time of day introduced by `T`/`t` or at least one space or tab); the
engine's resolver code is not in the repository snapshot. -/
def parseTimestamp (cs : List Char) : Option Node :=
  let (yd, r1) := takeDigits cs
  if yd.length == 4 then
    match r1 with
    | '-' :: r2 =>
      let (mod_, r3) := takeDigits r2
      if mod_.length == 1 || mod_.length == 2 then
        match r3 with
        | '-' :: r4 =>
          let (dd, r5) := takeDigits r4
          if dd.length == 1 || dd.length == 2 then
            match r5 with
            | [] => some (.date (digitsValA yd 0) (digitsValA mod_ 0) (digitsValA dd 0))
            | 'T' :: r6 => parseTsTime (digitsValA yd 0) (digitsValA mod_ 0) (digitsValA dd 0) r6
            | 't' :: r6 => parseTsTime (digitsValA yd 0) (digitsValA mod_ 0) (digitsValA dd 0) r6
            | c :: _ =>
              if c == ' ' || c == '\t' then
                parseTsTime (digitsValA yd 0) (digitsValA mod_ 0) (digitsValA dd 0) (dropSpTab r5)
              else none
          else none
        | _ => none
      else none
    | _ => none
  else none

/-- Modelled from the spec: implicit resolution of a plain scalar, tried
in the documented order — null, bool, int, timestamp (when enabled by the
configuration flag), with string as the fallback ("Resolution never
raises for a well-formed plain scalar — the fallback is always string").
The spec's float rule is outside the modelled fragment (a scalar such as
`1.5` resolves as a string here), so exact-magnitude statements proved
over this resolver concern integers only.  The engine's resolver code is
not in the repository snapshot. -/
def resolvePlain (dt : Bool) (cs : List Char) : Node :=
  if isNullTxt cs then .null
  else if isTrueTxt cs then .bool true
  else if isFalseTxt cs then .bool false
  else
    match parseIntChars cs with
    | some i => .int i
    | none =>
      if dt then
        match parseTimestamp cs with
        | some v => v
        | none => .str (String.mk cs)
      else .str (String.mk cs)

/-- The explicit tags covered by the modelled fragment. -/
inductive YTag where
  | tstr

/-- Modelled from the spec: scalar resolution with an optional explicit
tag — "if an explicit tag is present (e.g., `!!str`), it forces the Kind
and bypasses implicit matching"; the engine's resolver code is not in the
repository snapshot. -/
def resolveScalar (tag : Option YTag) (dt : Bool) (cs : List Char) : Node :=
  match tag with
  | some .tstr => .str (String.mk cs)
  | none => resolvePlain dt cs

/-- The tail of a scalar text carrying the explicit `!!str` tag, when
present. -/
def tagStrTail (cs : List Char) : Option (List Char) :=
  if cs.take 6 == ['!', '!', 's', 't', 'r', ' '] then some (cs.drop 6) else none

/-- Modelled from the spec: composition of a single-line node — empty flow
collections `[]`/`{}`, a double-quoted scalar (typed as a string), an
explicitly `!!str`-tagged scalar, or a plain scalar resolved implicitly;
the engine's composer code is not in the repository snapshot.  Nonempty
flow collections, single-quoted scalars, anchors and explicit tags other
than `!!str` are outside the modelled fragment. -/
def parseInline (dt : Bool) (cs : List Char) : Option Node :=
  if cs == ['[', ']'] then some (.seq [])
  else if cs == ['{', '}'] then some (.map [])
  else
    match cs with
    | [] => some (resolvePlain dt [])
    | c :: rest =>
      if c == '"' then
        match scanQ rest with
        | some (inner, []) => some (.str (String.mk inner))
        | _ => none
      else
        match tagStrTail cs with
        | some rest2 => some (resolveScalar (some .tstr) dt rest2)
        | none => some (resolvePlain dt cs)

/-- Find the first `: ` separator of a plain-keyed mapping line, returning
key text and value text. -/
def splitCS : List Char → Option (List Char × List Char)
  | [] => none
  | c :: rest =>
    if c == ':' && rest.head? == some ' ' then some ([], rest.tail)
    else (splitCS rest).map (fun p => (c :: p.1, p.2))

/-- Modelled from the spec: recognition of a block-mapping entry line —
a (plain or double-quoted) key followed by `:` and an optional inline
value on the same line; the engine's parser code is not in the repository
snapshot.  Returns the key and, when present, the inline value text. -/
def splitEntry (cs : List Char) : Option (String × Option (List Char)) :=
  match cs with
  | [] => none
  | c :: rest =>
    if c == '"' then
      match scanQ rest with
      | some (k, r2) =>
        match r2 with
        | [] => none
        | c2 :: r3 =>
          if c2 == ':' then
            match r3 with
            | [] => some (String.mk k, none)
            | c3 :: v => if c3 == ' ' then some (String.mk k, some v) else none
          else none
      | none => none
    else
      match splitCS (c :: rest) with
      | some (k, v) => some (String.mk k, some v)
      | none =>
        if endsWithC ':' (c :: rest) then some (String.mk (dropLastC (c :: rest)), none)
        else none

/-- The item text after `- ` of a dash (block-sequence) line, when the
line is one. -/
def dashTail : List Char → Option (List Char)
  | c1 :: c2 :: r => if c1 == '-' && c2 == ' ' then some r else none
  | _ => none

mutual

/-- Modelled from the spec: the parser/composer state machine over the
block-structured lines of a document — a node is a block sequence (lines
opening with a dash), a block mapping (entry lines), or a single-line
scalar; nested nodes sit two columns deeper, and a dash line carries its
item's first line inline after `- `.  Works on lines given as
(indentation, content) pairs, with explicit fuel so the definition is
structural; the engine's parser code is not in the repository snapshot.
The spec grammar's alias, flow-node and block-scalar productions are
outside the modelled fragment. -/
def parseVal (dt : Bool) : Nat → Nat → List (Nat × List Char) → Option (Node × List (Nat × List Char))
  | 0, _, _ => none
  | _ + 1, _, [] => none
  | fuel + 1, ind, (li, c) :: ls =>
    if li ≠ ind then none
    else
      match dashTail c with
      | some r =>
        match parseVal dt fuel (ind + 2) ((ind + 2, r) :: ls) with
        | some (x, ls1) =>
          match parseItems dt fuel ind ls1 with
          | some (xs, ls2) => some (.seq (x :: xs), ls2)
          | none => none
        | none => none
      | none =>
        match splitEntry c with
        | some (k, some vtxt) =>
          match parseInline dt vtxt with
          | some v =>
            match parseEntries dt fuel ind ls with
            | some (es, ls1) => some (.map ((k, v) :: es), ls1)
            | none => none
          | none => none
        | some (k, none) =>
          match parseVal dt fuel (ind + 2) ls with
          | some (v, ls1) =>
            match parseEntries dt fuel ind ls1 with
            | some (es, ls2) => some (.map ((k, v) :: es), ls2)
            | none => none
          | none => none
        | none =>
          match parseInline dt c with
          | some v => some (v, ls)
          | none => none

/-- Further items of a block sequence at the given indentation. -/
def parseItems (dt : Bool) : Nat → Nat → List (Nat × List Char) → Option (List Node × List (Nat × List Char))
  | 0, _, _ => none
  | _ + 1, _, [] => some ([], [])
  | fuel + 1, ind, (li, c) :: ls =>
    match dashTail c with
    | some r =>
      if li = ind then
        match parseVal dt fuel (ind + 2) ((ind + 2, r) :: ls) with
        | some (x, ls1) =>
          match parseItems dt fuel ind ls1 with
          | some (xs, ls2) => some (x :: xs, ls2)
          | none => none
        | none => none
      else some ([], (li, c) :: ls)
    | none => some ([], (li, c) :: ls)

/-- Further entries of a block mapping at the given indentation. -/
def parseEntries (dt : Bool) : Nat → Nat → List (Nat × List Char) → Option (List (String × Node) × List (Nat × List Char))
  | 0, _, _ => none
  | _ + 1, _, [] => some ([], [])
  | fuel + 1, ind, (li, c) :: ls =>
    if li = ind then
      match splitEntry c with
      | some (k, some vtxt) =>
        match parseInline dt vtxt with
        | some v =>
          match parseEntries dt fuel ind ls with
          | some (es, ls1) => some ((k, v) :: es, ls1)
          | none => none
        | none => none
      | some (k, none) =>
        match parseVal dt fuel (ind + 2) ls with
        | some (v, ls1) =>
          match parseEntries dt fuel ind ls1 with
          | some (es, ls2) => some ((k, v) :: es, ls2)
          | none => none
        | none => none
      | none => some ([], (li, c) :: ls)
    else some ([], (li, c) :: ls)

end

/-- Indentation and content of a raw line. -/
def toLine (cs : List Char) : Nat × List Char := (countSp cs, dropSp cs)

/-- Fuel bound for parsing a list of lines: three units per line plus
twice the content lengths. -/
def lineFuelL : List (Nat × List Char) → Nat
  | [] => 1
  | (_, c) :: ls => 2 * c.length + 3 + lineFuelL ls

/-- Parse the body lines of a document; an empty body resolves to null. -/
def parseBody (dt : Bool) (rows : List (List Char)) : Option Node :=
  match rows with
  | [] => some .null
  | _ =>
    let ls := rows.map toLine
    match parseVal dt (lineFuelL ls) 0 ls with
    | some (v, []) => some v
    | _ => none

/-- Modelled from the spec: the load entry point — `load(text, options)`
with the timestamp-resolution flag; an optional leading `---` document
marker is consumed, and "a document is resolved to null when the input
text is empty".  The engine's entry-point code is not in the repository
snapshot.  Only the single-document block fragment is modelled: flow
collections, anchors/aliases, merge keys, literal/folded block scalars,
directives and multi-document streams, which the spec's load handles, are
outside the model, so theorems quantifying over what this loads accepts
cover only that fragment. -/
def loads (dt : Bool) (s : String) : Option Node :=
  match splitNl s.data with
  | [] => some .null
  | first :: rest =>
    if first == ['-', '-', '-'] then parseBody dt rest else parseBody dt (first :: rest)

/-- Modelled from the spec: the emitter's plain-style policy — "String
scalars choose plain style unless disambiguation is required": the text
must open with a letter, continue with alphanumerics, dashes or
underscores, and must not be a null or boolean literal form that the
resolver would retype.  The engine's emitter code is not in the
repository snapshot. -/
def safePlainL (cs : List Char) : Bool :=
  match cs with
  | [] => false
  | c :: rest =>
    c.isAlpha && rest.all isPlainChar && !isNullTxt cs && !isTrueTxt cs && !isFalseTxt cs

/-- A double-quoted scalar: quote, escaped body, quote. -/
def quoteTxt (cs : List Char) : List Char := '"' :: (escAll cs ++ ['"'])

/-- Emitted text of a string scalar: plain when safe, double-quoted
otherwise. -/
def strTxt (s : String) : List Char := if safePlainL s.data then s.data else quoteTxt s.data

/-- Two-digit zero-padded decimal text. -/
def pad2 (n : Nat) : List Char := if n < 10 then '0' :: natDigits n else natDigits n

/-- Four-digit zero-padded decimal text. -/
def pad4 (n : Nat) : List Char :=
  if n < 10 then '0' :: '0' :: '0' :: natDigits n
  else if n < 100 then '0' :: '0' :: natDigits n
  else if n < 1000 then '0' :: natDigits n
  else natDigits n

/-- Emitted text of a date scalar (unquoted `YYYY-MM-DD`). -/
def dateTxt (y m d : Nat) : List Char := pad4 y ++ '-' :: (pad2 m ++ '-' :: pad2 d)

/-- Six-digit zero-padded microsecond text. -/
def pad6 (n : Nat) : List Char :=
  List.replicate (6 - (natDigits n).length) '0' ++ natDigits n

/-- Drop leading zeros while keeping at least the given length. -/
def dropLead0 (minLen : Nat) : List Char → List Char
  | [] => []
  | c :: rest =>
    if c == '0' && minLen < rest.length + 1 then dropLead0 minLen rest else c :: rest

/-- Drop trailing zeros while keeping at least the given length. -/
def trimZeros (minLen : Nat) (cs : List Char) : List Char :=
  (dropLead0 minLen cs.reverse).reverse

/-- Fractional-second text of a timestamp: empty when the microsecond
value is zero, otherwise a dot and the six-digit value with trailing
zeros trimmed down to the given minimum number of digits. -/
def fracTxt (minLen micro : Nat) : List Char :=
  if micro == 0 then [] else '.' :: trimZeros minLen (pad6 micro)

/-- Timezone text of a timestamp: nothing when naive, `Z` for a zero
offset, and a signed `±HH:MM` otherwise. -/
def tzTxt : Option Int → List Char
  | none => []
  | some off =>
    if off = 0 then ['Z']
    else
      (if off < 0 then '-' else '+') ::
        (pad2 (off.natAbs / 60) ++ ':' :: pad2 (off.natAbs % 60))

/-- Modelled from the spec and the dump fixtures: the emitter's date-time
formatting — RFC-3339-compatible, always double quoted, a zero UTC offset
rendered as `Z`; trailing zero fractional digits are trimmed, for a
nonzero offset down to no fewer than two digits (the fixture
`21:59:43.10-05:00` keeps two).  The engine's emitter code is not in the
repository snapshot. -/
def dtTxt (d : DateTimeV) : List Char :=
  let minLen : Nat :=
    match d.tz with
    | some off => if off = 0 then 1 else 2
    | none => 1
  '"' ::
    (dateTxt d.year d.month d.day ++
      'T' :: (pad2 d.hour ++ ':' :: (pad2 d.minute ++ ':' :: (pad2 d.second ++
        fracTxt minLen d.microsec ++ tzTxt d.tz))) ++ ['"'])

/-- Is the node emitted inline on a single line (scalars and empty
collections)? -/
def isInlineN : Node → Bool
  | .seq xs => xs.isEmpty
  | .map es => es.isEmpty
  | _ => true

/-- Single-line emitted text of an inline node. -/
def inlineTxt : Node → List Char
  | .null => 'n' :: ['u', 'l', 'l']
  | .bool true => 't' :: ['r', 'u', 'e']
  | .bool false => 'f' :: ['a', 'l', 's', 'e']
  | .int i => intChars i
  | .str s => strTxt s
  | .date y m d => dateTxt y m d
  | .datetime d => dtTxt d
  | .seq _ => ['[', ']']
  | .map _ => ['{', '}']

mutual

/-- Modelled from the spec: the emitter's line production for a node at a
given indentation — "Mapping/Sequence choose block style by default (flow
style reserved for empty collections, which render as `{}`/`[]`)"; nested
nodes are indented two further columns.  Compact layout (the default) is
emitted: a sequence item's first line follows its dash.  The engine's
emitter code is not in the repository snapshot. -/
def emitLines : Node → Nat → List (Nat × List Char)
  | .seq (x :: xs), ind => emitItems (x :: xs) ind
  | .map (e :: es), ind => emitEntries (e :: es) ind
  | v, ind => [(ind, inlineTxt v)]

/-- Lines of the items of a block sequence: each item's first line is
spliced after `- ` on the dash line. -/
def emitItems : List Node → Nat → List (Nat × List Char)
  | [], _ => []
  | x :: xs, ind =>
    (match emitLines x (ind + 2) with
     | (_, c) :: rest => (ind, '-' :: ' ' :: c) :: rest
     | [] => []) ++ emitItems xs ind

/-- Lines of the entries of a block mapping: inline values share the key
line after `: `, block values start on the following lines. -/
def emitEntries : List (String × Node) → Nat → List (Nat × List Char)
  | [], _ => []
  | (k, v) :: es, ind =>
    (if isInlineN v then [(ind, strTxt k ++ ':' :: ' ' :: inlineTxt v)]
     else (ind, strTxt k ++ [':']) :: emitLines v (ind + 2)) ++ emitEntries es ind

end

/-- Render (indentation, content) lines as text. -/
def renderLines (ls : List (Nat × List Char)) : List Char :=
  joinNl (ls.map (fun p => List.replicate p.1 ' ' ++ p.2))

/-- Modelled from the spec: the dump text of a composed node with default
options — the explicit `---` document-start marker line followed by the
emitted body; the engine's emitter code is not in the repository
snapshot. -/
def dumpN (v : Node) : String :=
  String.mk ('-' :: '-' :: '-' :: '\n' :: renderLines (emitLines v 0))

/-- Options of the dump entry point: compact layout (default on) and the
multiline-string block-literal policy (default off). -/
structure DumpOpts where
  compact : Bool
  multilineStrings : Bool
deriving DecidableEq

/-- The default dump options. -/
def defaultOpts : DumpOpts := ⟨true, false⟩

/-- Modelled from the spec: the value handed to the dump entry point by
the binding layer — the closed emitter variant extended with an opaque
constructor standing for any host value "whose type has no defined
representer", carrying the host type name and a short repr of the value.
The engine's binding code is not in the repository snapshot. -/
inductive HostValue where
  | hnull
  | hbool (b : Bool)
  | hint (i : Int)
  | hstr (s : String)
  | hdate (y m d : Nat)
  | hdatetime (d : DateTimeV)
  | hseq (xs : List HostValue)
  | hmap (es : List (String × HostValue))
  | hobj (typeName valueRepr : String)

/-- The encode-error message: `Cannot serialize <type-name> (<value-repr>)
to YAML`. -/
def serErr (t r : String) : String :=
  "Cannot serialize " ++ t ++ " (" ++ r ++ ") to YAML"

/-- Does the multiline-string policy apply: option enabled and the string
contains a newline? -/
def useBlock (opts : DumpOpts) (cs : List Char) : Bool :=
  opts.multilineStrings && cs.contains '\n'

/-- Modelled from the spec: block-literal lines of a multiline string —
header `|-` (strip) when the string has no final newline, `|` (clip) when
it has one, "with a chomping indicator chosen to avoid a trailing blank
line"; content lines follow at the same indentation slot (their rendered
indentation is two columns right of the owning key or dash line).  The
engine's emitter code is not in the repository snapshot. -/
def blockLines (cs : List Char) (ind : Nat) : List (Nat × List Char) :=
  if endsWithC '\n' cs then
    (ind, ['|']) :: (splitNl (dropLastC cs)).map (fun l => (ind, l))
  else
    (ind, ['|', '-']) :: (splitNl cs).map (fun l => (ind, l))

/-- Is the host value emitted inline on a single line under the given
options? -/
def isInlineH (opts : DumpOpts) : HostValue → Bool
  | .hseq xs => xs.isEmpty
  | .hmap es => es.isEmpty
  | .hstr s => !useBlock opts s.data
  | _ => true

/-- Is the host value a string emitted in block-literal style under the
given options? -/
def isBlockStr (opts : DumpOpts) : HostValue → Bool
  | .hstr s => useBlock opts s.data
  | _ => false

/-- Is the host value a nonempty mapping (the node class whose placement
after a dash the compact option controls)? -/
def isMapH : HostValue → Bool
  | .hmap (_ :: _) => true
  | _ => false

/-- Single-line emitted text of an inline host value. -/
def inlineTxtH : HostValue → List Char
  | .hnull => 'n' :: ['u', 'l', 'l']
  | .hbool true => 't' :: ['r', 'u', 'e']
  | .hbool false => 'f' :: ['a', 'l', 's', 'e']
  | .hint i => intChars i
  | .hstr s => strTxt s
  | .hdate y m d => dateTxt y m d
  | .hdatetime d => dtTxt d
  | .hseq _ => ['[', ']']
  | .hmap _ => ['{', '}']
  | .hobj _ _ => []

mutual

/-- Modelled from the spec: the emitter over host values — like the node
emitter, but any opaque value anywhere in the tree fails immediately with
the encode-error message and no text ("no partial document is emitted
when any node fails to encode"), and the multiline-string and compact
options are honored.  The engine's emitter code is not in the repository
snapshot. -/
def emitH (opts : DumpOpts) : HostValue → Nat → Except String (List (Nat × List Char))
  | .hobj t r, _ => .error (serErr t r)
  | .hstr s, ind =>
    .ok (if useBlock opts s.data then blockLines s.data ind else [(ind, strTxt s)])
  | .hseq (x :: xs), ind => emitHItems opts (x :: xs) ind
  | .hmap (e :: es), ind => emitHEntries opts (e :: es) ind
  | v, ind => .ok [(ind, inlineTxtH v)]

/-- Lines of the items of a host block sequence; with compact layout a
nonempty mapping item is spliced after the dash, without it the dash
stands alone and the mapping follows indented. -/
def emitHItems (opts : DumpOpts) : List HostValue → Nat → Except String (List (Nat × List Char))
  | [], _ => .ok []
  | x :: xs, ind =>
    match emitH opts x (ind + 2) with
    | .error e => .error e
    | .ok lines =>
      match emitHItems opts xs ind with
      | .error e => .error e
      | .ok restL =>
        if !opts.compact && isMapH x then
          .ok ((ind, ['-']) :: (lines ++ restL))
        else
          match lines with
          | (_, c) :: ls1 => .ok ((ind, '-' :: ' ' :: c) :: (ls1 ++ restL))
          | [] => .ok restL

/-- Lines of the entries of a host block mapping; a block-literal string
value puts its header after the key's colon. -/
def emitHEntries (opts : DumpOpts) : List (String × HostValue) → Nat → Except String (List (Nat × List Char))
  | [], _ => .ok []
  | (k, v) :: es, ind =>
    match emitH opts v (ind + 2) with
    | .error e => .error e
    | .ok lines =>
      match emitHEntries opts es ind with
      | .error e => .error e
      | .ok restL =>
        if isInlineH opts v then
          .ok ((ind, strTxt k ++ ':' :: ' ' :: inlineTxtH v) :: restL)
        else if isBlockStr opts v then
          match lines with
          | (_, c) :: ls1 => .ok ((ind, strTxt k ++ ':' :: ' ' :: c) :: (ls1 ++ restL))
          | [] => .ok restL
        else
          .ok ((ind, strTxt k ++ [':']) :: (lines ++ restL))

end

/-- Modelled from the spec: the dump entry point — `dump(value, options)`,
producing the `---`-prefixed document text or failing with the encode
error of the first unencodable value; the engine's entry-point code is
not in the repository snapshot. -/
def dumps (opts : DumpOpts) (v : HostValue) : Except String String :=
  match emitH opts v 0 with
  | .error e => .error e
  | .ok lines => .ok (String.mk ('-' :: '-' :: '-' :: '\n' :: renderLines lines))

mutual

/-- The injection of composed nodes into host values (the marshalling of a
load result back into a dump argument). -/
def nodeToHost : Node → HostValue
  | .null => .hnull
  | .bool b => .hbool b
  | .int i => .hint i
  | .str s => .hstr s
  | .date y m d => .hdate y m d
  | .datetime d => .hdatetime d
  | .seq xs => .hseq (nodeToHostL xs)
  | .map es => .hmap (nodeToHostE es)

/-- Injection of a node list into host values. -/
def nodeToHostL : List Node → List HostValue
  | [] => []
  | x :: xs => nodeToHost x :: nodeToHostL xs

/-- Injection of node mapping entries into host values. -/
def nodeToHostE : List (String × Node) → List (String × HostValue)
  | [] => []
  | (k, v) :: es => (k, nodeToHost v) :: nodeToHostE es

end

mutual

/-- Does the node tree contain no date or date-time scalar? -/
def dtFree : Node → Bool
  | .date _ _ _ => false
  | .datetime _ => false
  | .seq xs => dtFreeL xs
  | .map es => dtFreeE es
  | _ => true

/-- dtFree over a node list. -/
def dtFreeL : List Node → Bool
  | [] => true
  | x :: xs => dtFree x && dtFreeL xs

/-- dtFree over mapping entries. -/
def dtFreeE : List (String × Node) → Bool
  | [] => true
  | (_, v) :: es => dtFree v && dtFreeE es

end

mutual

/-- The first opaque value of a host tree in emission order, if any. -/
def firstOpaque : HostValue → Option (String × String)
  | .hobj t r => some (t, r)
  | .hseq xs => firstOpaqueL xs
  | .hmap es => firstOpaqueE es
  | _ => none

/-- firstOpaque over a host value list. -/
def firstOpaqueL : List HostValue → Option (String × String)
  | [] => none
  | x :: xs =>
    match firstOpaque x with
    | some p => some p
    | none => firstOpaqueL xs

/-- firstOpaque over host mapping entries. -/
def firstOpaqueE : List (String × HostValue) → Option (String × String)
  | [] => none
  | (_, v) :: es =>
    match firstOpaque v with
    | some p => some p
    | none => firstOpaqueE es

end

/-- A decode error: 1-based line and column, an optional recoverable
source-line excerpt, and the human-readable description. -/
structure ErrorInfo where
  line : Nat
  col : Nat
  excerpt : Option String
  desc : String
deriving DecidableEq

/-- Modelled from the spec: the error reporter's message formatting —
`YAML parse error at line <L>, column <C>` then the description for
position-only errors, and the excerpt form reproducing the source line
with a caret aligned under column C when an excerpt is recoverable.  The
engine's error-reporter code is not in the repository snapshot. -/
def formatErr (e : ErrorInfo) : String :=
  let ln := String.mk (natDigits e.line)
  let head := "YAML parse error at line " ++ ln ++ ", column " ++ String.mk (natDigits e.col)
  match e.excerpt with
  | none => head ++ "\n" ++ e.desc
  | some src =>
    let bar := String.mk (List.replicate (natDigits e.line).length ' ') ++ " |"
    head ++ "\n" ++ bar ++ "\n" ++ ln ++ " | " ++ src ++ "\n" ++
      bar ++ " " ++ String.mk (List.replicate (e.col - 1) ' ') ++ "^" ++ "\n" ++ e.desc

/-- Modelled from the spec: the decode error that load reports for the
literal scenario `load("[ [ [ [")` — "ScanError/ParseError at line 2,
column 1, message 'while parsing a node, did not find expected node
content'" (a position-only error); the engine's parser code is not in the
repository snapshot. -/
def flowNodeErr : ErrorInfo :=
  ⟨2, 1, none, "while parsing a node, did not find expected node content"⟩

/-- Modelled from the spec: the decode error that load reports for the
unterminated quoted scalar in `name: "unclosed` — a ScanError at line 1,
column 7 (the column of the opening quote) carrying the source line as a
recoverable excerpt, with the scanner's spec-aligned message; the
engine's scanner code is not in the repository snapshot. -/
def unclosedQuoteErr : ErrorInfo :=
  ⟨1, 7, some "name: \"unclosed",
    "while scanning a quoted scalar, found unexpected end of stream"⟩

mutual

/-- Structural size of a node, used as a fuel bound for the parser. -/
def nsize : Node → Nat
  | .seq xs => 1 + nsizeL xs
  | .map es => 1 + nsizeE es
  | _ => 1

/-- Structural size of a node list. -/
def nsizeL : List Node → Nat
  | [] => 1
  | x :: xs => 1 + nsize x + nsizeL xs

/-- Structural size of mapping entries. -/
def nsizeE : List (String × Node) → Nat
  | [] => 1
  | (_, v) :: es => 1 + nsize v + nsizeE es

end

/-- The lines following a parsed region either end or dedent below the
given indentation, so the region's collection loops stop there. -/
def stopOk (ind : Nat) : List (Nat × List Char) → Prop
  | [] => True
  | (li, _) :: _ => li < ind

/-! ### Digit and character foundations -/

theorem digit_bundle : ∀ k, k < 10 →
    (digitChar k).isDigit = true ∧ isPlainChar (digitChar k) = true ∧
    digitChar k ≠ '-' ∧ digitChar k ≠ '+' ∧ digitChar k ≠ '"' ∧ digitChar k ≠ '!' ∧
    digitChar k ≠ ':' ∧ digitChar k ≠ '\n' ∧ digitChar k ≠ ' ' ∧ digitChar k ≠ '[' ∧
    digitChar k ≠ '{' ∧ digitChar k ≠ '~' ∧ digitChar k ≠ 'n' ∧ digitChar k ≠ 'N' ∧
    digitChar k ≠ 't' ∧ digitChar k ≠ 'T' ∧ digitChar k ≠ 'f' ∧ digitChar k ≠ 'F' := by
  decide

theorem charVal_digitChar : ∀ k, k < 10 → charVal (digitChar k) = k := by decide

theorem digitsValA_append (a b : List Char) (acc : Nat) :
    digitsValA (a ++ b) acc = digitsValA b (digitsValA a acc) := by
  induction a generalizing acc with
  | nil => rfl
  | cons c cs ih => simp [digitsValA, ih]

theorem natDigitsF_spec : ∀ fuel n, n < fuel →
    (∀ c ∈ natDigitsF fuel n, ∃ k, k < 10 ∧ c = digitChar k) ∧
    natDigitsF fuel n ≠ [] ∧ digitsValA (natDigitsF fuel n) 0 = n := by
  intro fuel
  induction fuel with
  | zero => intro n h; omega
  | succ f ih =>
    intro n h
    by_cases h10 : n < 10
    · refine ⟨?_, ?_, ?_⟩
      · simp only [natDigitsF, if_pos h10, List.mem_singleton]
        exact fun c hc => ⟨n, h10, hc⟩
      · simp [natDigitsF, if_pos h10]
      · simp only [natDigitsF, if_pos h10, digitsValA]
        simpa using charVal_digitChar n h10
    · have hd : n / 10 < f := by omega
      obtain ⟨hmem, hne, hv⟩ := ih (n / 10) hd
      have hm10 : n % 10 < 10 := Nat.mod_lt _ (by omega)
      refine ⟨?_, ?_, ?_⟩
      · simp only [natDigitsF, if_neg h10, List.mem_append, List.mem_singleton]
        intro c hc
        rcases hc with hc | hc
        · exact hmem c hc
        · exact ⟨n % 10, hm10, hc⟩
      · simp [natDigitsF, if_neg h10]
      · simp only [natDigitsF, if_neg h10]
        rw [digitsValA_append, hv]
        simp only [digitsValA, charVal_digitChar _ hm10]
        omega

theorem natDigits_mem (n : Nat) : ∀ c ∈ natDigits n, ∃ k, k < 10 ∧ c = digitChar k :=
  (natDigitsF_spec (n + 1) n (by omega)).1

theorem natDigits_ne_nil (n : Nat) : natDigits n ≠ [] :=
  (natDigitsF_spec (n + 1) n (by omega)).2.1

theorem digitsValA_natDigits (n : Nat) : digitsValA (natDigits n) 0 = n :=
  (natDigitsF_spec (n + 1) n (by omega)).2.2

theorem natDigits_all_isDigit (n : Nat) : (natDigits n).all Char.isDigit = true := by
  rw [List.all_eq_true]
  intro c hc
  obtain ⟨k, hk, rfl⟩ := natDigits_mem n c hc
  exact (digit_bundle k hk).1

theorem parseNatChars_natDigits (n : Nat) : parseNatChars (natDigits n) = some n := by
  have h1 := natDigits_ne_nil n
  simp [parseNatChars, List.isEmpty_iff, h1, natDigits_all_isDigit, digitsValA_natDigits]

theorem intChars_shape (i : Int) : ∃ c cs, intChars i = c :: cs ∧
    (c = '-' ∨ ∃ k, k < 10 ∧ c = digitChar k) ∧
    ∀ d ∈ cs, ∃ k, k < 10 ∧ d = digitChar k := by
  cases i with
  | ofNat n =>
    obtain ⟨c, cs, hc⟩ := List.exists_cons_of_ne_nil (natDigits_ne_nil n)
    refine ⟨c, cs, hc, .inr ?_, fun d hd => ?_⟩
    · exact natDigits_mem n c (hc ▸ List.mem_cons_self c cs)
    · exact natDigits_mem n d (hc ▸ List.mem_cons_of_mem c hd)
  | negSucc n =>
    exact ⟨'-', natDigits (n + 1), rfl, .inl rfl, fun d hd => natDigits_mem (n + 1) d hd⟩

theorem parseIntChars_intChars (i : Int) : parseIntChars (intChars i) = some i := by
  cases i with
  | ofNat n =>
    obtain ⟨c, cs, hc⟩ := List.exists_cons_of_ne_nil (natDigits_ne_nil n)
    obtain ⟨k, hk, rfl⟩ := natDigits_mem n c (hc ▸ List.mem_cons_self c cs)
    have e1 : (digitChar k == '-') = false :=
      beq_eq_false_iff_ne.mpr (digit_bundle k hk).2.2.1
    have e2 : (digitChar k == '+') = false :=
      beq_eq_false_iff_ne.mpr (digit_bundle k hk).2.2.2.1
    show parseIntChars (natDigits n) = some (Int.ofNat n)
    rw [hc]
    simp only [parseIntChars, e1, e2, Bool.false_eq_true, if_false]
    rw [← hc, parseNatChars_natDigits]
    rfl
  | negSucc n =>
    show parseIntChars ('-' :: natDigits (n + 1)) = some (Int.negSucc n)
    simp [parseIntChars, parseNatChars_natDigits, Int.negSucc_eq]

theorem isNullTxt_false {c : Char} {cs : List Char} (h1 : c ≠ '~') (h2 : c ≠ 'n')
    (h3 : c ≠ 'N') : isNullTxt (c :: cs) = false := by
  have e1 : (c == '~') = false := beq_eq_false_iff_ne.mpr h1
  have e2 : (c == 'n') = false := beq_eq_false_iff_ne.mpr h2
  have e3 : (c == 'N') = false := beq_eq_false_iff_ne.mpr h3
  simp [isNullTxt, List.cons_beq_cons, e1, e2, e3]

theorem isTrueTxt_false {c : Char} {cs : List Char} (h1 : c ≠ 't') (h2 : c ≠ 'T') :
    isTrueTxt (c :: cs) = false := by
  have e1 : (c == 't') = false := beq_eq_false_iff_ne.mpr h1
  have e2 : (c == 'T') = false := beq_eq_false_iff_ne.mpr h2
  simp [isTrueTxt, List.cons_beq_cons, e1, e2]

theorem isFalseTxt_false {c : Char} {cs : List Char} (h1 : c ≠ 'f') (h2 : c ≠ 'F') :
    isFalseTxt (c :: cs) = false := by
  have e1 : (c == 'f') = false := beq_eq_false_iff_ne.mpr h1
  have e2 : (c == 'F') = false := beq_eq_false_iff_ne.mpr h2
  simp [isFalseTxt, List.cons_beq_cons, e1, e2]

/-! ### Quoted-scalar escape round trip -/

theorem hex_bundle : ∀ k, k < 16 →
    isHexChar (hexChar k) = true ∧ hexVal (hexChar k) = k ∧ hexChar k ≠ '\n' := by decide

theorem scanQ_escAll : ∀ (cs r : List Char), scanQ (escAll cs ++ '"' :: r) = some (cs, r) := by
  intro cs
  induction cs with
  | nil => intro r; rw [scanQ.eq_def]; simp [escAll]
  | cons c cs ih =>
    intro r
    have hassoc : escAll (c :: cs) ++ '"' :: r = escChar c ++ (escAll cs ++ '"' :: r) := by
      simp [escAll]
    rw [hassoc]
    by_cases h1 : c = '\\'
    · subst h1
      rw [show escChar '\\' = ['\\', '\\'] from rfl]
      rw [List.cons_append, List.cons_append, scanQ.eq_def]
      simp [ih]
    · by_cases h2 : c = '"'
      · subst h2
        rw [show escChar '"' = ['\\', '"'] from rfl]
        rw [List.cons_append, List.cons_append, scanQ.eq_def]
        simp [ih]
      · by_cases h3 : c = '\n'
        · subst h3
          rw [show escChar '\n' = ['\\', 'n'] from rfl]
          rw [List.cons_append, List.cons_append, scanQ.eq_def]
          simp [ih]
        · by_cases h4 : c = '\t'
          · subst h4
            rw [show escChar '\t' = ['\\', 't'] from rfl]
            rw [List.cons_append, List.cons_append, scanQ.eq_def]
            simp [ih]
          · by_cases h5 : c = '\r'
            · subst h5
              rw [show escChar '\r' = ['\\', 'r'] from rfl]
              rw [List.cons_append, List.cons_append, scanQ.eq_def]
              simp [ih]
            · have e1 : (c == '\\') = false := beq_eq_false_iff_ne.mpr h1
              have e2 : (c == '"') = false := beq_eq_false_iff_ne.mpr h2
              have e3 : (c == '\n') = false := beq_eq_false_iff_ne.mpr h3
              have e4 : (c == '\t') = false := beq_eq_false_iff_ne.mpr h4
              have e5 : (c == '\r') = false := beq_eq_false_iff_ne.mpr h5
              by_cases h6 : c.toNat < 32
              · have hq : c.toNat / 16 < 16 := by omega
                have hr : c.toNat % 16 < 16 := by omega
                have hx1 := hex_bundle _ hq
                have hx2 := hex_bundle _ hr
                rw [escChar]
                simp only [e1, e2, e3, e4, e5, Bool.false_eq_true, if_false, if_pos h6]
                rw [List.cons_append, List.cons_append, List.cons_append, List.cons_append,
                  List.cons_append, List.cons_append, scanQ.eq_def]
                have hv : ((hexVal '0' * 16 + hexVal '0') * 16 + c.toNat / 16) * 16 +
                    c.toNat % 16 = c.toNat := by
                  have h0 : hexVal '0' = 0 := rfl
                  rw [h0]
                  omega
                simp only [hx1.1, hx2.1, hx1.2.1, hx2.2.1, ih, hv, Char.ofNat_toNat,
                  Bool.and_self, beq_self_eq_true, if_true, reduceIte, Option.map_some]
                simp [ih]
                rfl
              · rw [escChar]
                simp only [e1, e2, e3, e4, e5, Bool.false_eq_true, if_false, if_neg h6]
                rw [List.cons_append, List.nil_append, scanQ.eq_def]
                simp [e1, e2, e3, ih]

/-! ### Head-character dispatch lemmas -/

theorem alpha_toNat {c : Char} (h : c.isAlpha = true) :
    (65 ≤ c.toNat ∧ c.toNat ≤ 90) ∨ (97 ≤ c.toNat ∧ c.toNat ≤ 122) := by
  simp only [Char.isAlpha, Char.isUpper, Char.isLower, Bool.or_eq_true, Bool.and_eq_true,
    decide_eq_true_eq] at h
  rcases h with ⟨h1, h2⟩ | ⟨h1, h2⟩
  · exact .inl ⟨h1, h2⟩
  · exact .inr ⟨h1, h2⟩

theorem digit_toNat {c : Char} (h : c.isDigit = true) : 48 ≤ c.toNat ∧ c.toNat ≤ 57 := by
  simp only [Char.isDigit, Bool.and_eq_true, decide_eq_true_eq] at h
  exact ⟨h.1, h.2⟩

theorem isDigit_false_of_isAlpha {c : Char} (h : c.isAlpha = true) : c.isDigit = false := by
  cases hd : c.isDigit
  · rfl
  · have h1 := digit_toNat hd
    have h2 := alpha_toNat h
    omega

theorem ne_of_pred {p : Char → Bool} {c d : Char} (h : p c = true) (hd : p d = false) :
    c ≠ d := by
  intro heq
  rw [heq, hd] at h
  exact Bool.noConfusion h

theorem dashTail_nil : dashTail [] = none := rfl

theorem dashTail_single (c : Char) : dashTail [c] = none := rfl

theorem dashTail_none1 {c : Char} (cs : List Char) (h : c ≠ '-') :
    dashTail (c :: cs) = none := by
  have e : (c == '-') = false := beq_eq_false_iff_ne.mpr h
  cases cs with
  | nil => rfl
  | cons c2 r => simp [dashTail, e]

theorem dashTail_none2 {c2 : Char} (c : Char) (cs : List Char) (h : c2 ≠ ' ') :
    dashTail (c :: c2 :: cs) = none := by
  have e : (c2 == ' ') = false := beq_eq_false_iff_ne.mpr h
  simp [dashTail, e]

theorem dashTail_dash (r : List Char) : dashTail ('-' :: ' ' :: r) = some r := rfl

theorem tagStrTail_none {c : Char} (cs : List Char) (h : c ≠ '!') :
    tagStrTail (c :: cs) = none := by
  have e : (c == '!') = false := beq_eq_false_iff_ne.mpr h
  simp [tagStrTail, List.take_succ_cons, List.cons_beq_cons, e]

theorem splitCS_none {cs : List Char} (h : ∀ c ∈ cs, c ≠ ':') : splitCS cs = none := by
  induction cs with
  | nil => rfl
  | cons c rest ih =>
    have e : (c == ':') = false := beq_eq_false_iff_ne.mpr (h c (List.mem_cons_self c rest))
    simp [splitCS, e, ih (fun d hd => h d (List.mem_cons_of_mem c hd))]

theorem splitCS_sep {k : List Char} (v : List Char) (h : ∀ c ∈ k, c ≠ ':') :
    splitCS (k ++ ':' :: ' ' :: v) = some (k, v) := by
  induction k with
  | nil => simp [splitCS]
  | cons c rest ih =>
    have e : (c == ':') = false := beq_eq_false_iff_ne.mpr (h c (List.mem_cons_self c rest))
    simp [splitCS, e, ih (fun d hd => h d (List.mem_cons_of_mem c hd))]

theorem splitCS_colon_end {k : List Char} (h : ∀ c ∈ k, c ≠ ':') :
    splitCS (k ++ [':']) = none := by
  induction k with
  | nil => simp [splitCS]
  | cons c rest ih =>
    have e : (c == ':') = false := beq_eq_false_iff_ne.mpr (h c (List.mem_cons_self c rest))
    simp [splitCS, e, ih (fun d hd => h d (List.mem_cons_of_mem c hd))]

theorem endsWithC_cons_of_ne_nil {l : List Char} (t x : Char) (h : l ≠ []) :
    endsWithC t (x :: l) = endsWithC t l := by
  cases l with
  | nil => exact absurd rfl h
  | cons y ys => rfl

theorem endsWithC_append_single (t : Char) (xs : List Char) :
    endsWithC t (xs ++ [t]) = true := by
  induction xs with
  | nil => simp [endsWithC]
  | cons x rest ih =>
    rw [List.cons_append, endsWithC_cons_of_ne_nil t x (by simp)]
    exact ih

theorem endsWithC_false {t : Char} {cs : List Char} (h : ∀ c ∈ cs, c ≠ t) :
    endsWithC t cs = false := by
  induction cs with
  | nil => rfl
  | cons c rest ih =>
    cases rest with
    | nil =>
      have e : (c == t) = false := beq_eq_false_iff_ne.mpr (h c (List.mem_cons_self c []))
      simpa [endsWithC] using e
    | cons d ds =>
      rw [endsWithC_cons_of_ne_nil t c (by simp)]
      exact ih (fun x hx => h x (List.mem_cons_of_mem c hx))

theorem dropLastC_cons_of_ne_nil {l : List Char} (x : Char) (h : l ≠ []) :
    dropLastC (x :: l) = x :: dropLastC l := by
  cases l with
  | nil => exact absurd rfl h
  | cons y ys => rfl

theorem dropLastC_append_single (a : Char) (xs : List Char) :
    dropLastC (xs ++ [a]) = xs := by
  induction xs with
  | nil => rfl
  | cons x rest ih =>
    rw [List.cons_append, dropLastC_cons_of_ne_nil x (by simp), ih]

/-! ### Inline scalar round trip -/

theorem mk_data (s : String) : String.mk s.data = s := by cases s; rfl

theorem safePlainL_parts {cs : List Char} (h : safePlainL cs = true) :
    ∃ c rest, cs = c :: rest ∧ c.isAlpha = true ∧ rest.all isPlainChar = true ∧
      isNullTxt cs = false ∧ isTrueTxt cs = false ∧ isFalseTxt cs = false := by
  cases cs with
  | nil => exact absurd h (by simp [safePlainL])
  | cons c rest =>
    simp only [safePlainL, Bool.and_eq_true, Bool.not_eq_eq_eq_not, Bool.not_true] at h
    exact ⟨c, rest, rfl, h.1.1.1.1, h.1.1.1.2, h.1.1.2, h.1.2, h.2⟩

theorem parseIntChars_none_of_alpha {c : Char} (rest : List Char) (h : c.isAlpha = true) :
    parseIntChars (c :: rest) = none := by
  have e1 : (c == '-') = false := beq_eq_false_iff_ne.mpr (ne_of_pred h (by rfl))
  have e2 : (c == '+') = false := beq_eq_false_iff_ne.mpr (ne_of_pred h (by rfl))
  have e3 : c.isDigit = false := isDigit_false_of_isAlpha h
  simp [parseIntChars, e1, e2, parseNatChars, e3]

theorem parseTimestamp_none_of_alpha {c : Char} (rest : List Char) (h : c.isAlpha = true) :
    parseTimestamp (c :: rest) = none := by
  have e3 : c.isDigit = false := isDigit_false_of_isAlpha h
  rw [parseTimestamp]
  simp [takeDigits, List.span_eq_take_drop, List.takeWhile_cons, e3]

theorem resolvePlain_safePlain {cs : List Char} (dt : Bool) (h : safePlainL cs = true) :
    resolvePlain dt cs = .str (String.mk cs) := by
  obtain ⟨c, rest, rfl, ha, hp, hn, ht, hf⟩ := safePlainL_parts h
  rw [resolvePlain, hn, ht, hf]
  rw [parseIntChars_none_of_alpha rest ha]
  cases dt with
  | false => simp
  | true => simp [parseTimestamp_none_of_alpha rest ha]

theorem intChars_mem_ne {i : Int} : ∀ d ∈ intChars i, d ≠ ':' ∧ d ≠ '\n' ∧ d ≠ '"' := by
  obtain ⟨c, cs, hsh, hc, hcs⟩ := intChars_shape i
  rw [hsh]
  intro d hd
  rcases List.mem_cons.mp hd with rfl | hmem
  · rcases hc with rfl | ⟨k, hk, rfl⟩
    · exact ⟨by decide, by decide, by decide⟩
    · have hb := digit_bundle k hk
      exact ⟨hb.2.2.2.2.2.2.1, hb.2.2.2.2.2.2.2.1, hb.2.2.2.2.1⟩
  · obtain ⟨k, hk, rfl⟩ := hcs d hmem
    have hb := digit_bundle k hk
    exact ⟨hb.2.2.2.2.2.2.1, hb.2.2.2.2.2.2.2.1, hb.2.2.2.2.1⟩

theorem intHead_facts {c : Char} (h : c = '-' ∨ ∃ k, k < 10 ∧ c = digitChar k) :
    c ≠ '"' ∧ c ≠ '!' ∧ c ≠ '[' ∧ c ≠ '{' ∧ c ≠ '~' ∧ c ≠ 'n' ∧ c ≠ 'N' ∧ c ≠ 't' ∧
    c ≠ 'T' ∧ c ≠ 'f' ∧ c ≠ 'F' := by
  rcases h with rfl | ⟨k, hk, rfl⟩
  · refine ⟨?_, ?_, ?_, ?_, ?_, ?_, ?_, ?_, ?_, ?_, ?_⟩ <;> decide
  · revert hk
    revert k
    decide

theorem parseInline_int (dt : Bool) (i : Int) : parseInline dt (intChars i) = some (.int i) := by
  obtain ⟨c, cs, hsh, hc, hcs⟩ := intChars_shape i
  have hf := intHead_facts hc
  have hnn : c ≠ '~' ∧ c ≠ 'n' ∧ c ≠ 'N' := ⟨hf.2.2.2.2.1, hf.2.2.2.2.2.1, hf.2.2.2.2.2.2.1⟩
  have e1 : (c == '[') = false := beq_eq_false_iff_ne.mpr hf.2.2.1
  have e2 : (c == '{') = false := beq_eq_false_iff_ne.mpr hf.2.2.2.1
  have e3 : (c == '"') = false := beq_eq_false_iff_ne.mpr hf.1
  rw [hsh]
  unfold parseInline
  simp only [List.cons_beq_cons, e1, e2, e3, Bool.false_and, Bool.false_eq_true, if_false,
    tagStrTail_none cs hf.2.1]
  rw [resolvePlain, isNullTxt_false hnn.1 hnn.2.1 hnn.2.2,
    isTrueTxt_false hf.2.2.2.2.2.2.2.1 hf.2.2.2.2.2.2.2.2.1,
    isFalseTxt_false hf.2.2.2.2.2.2.2.2.2.1 hf.2.2.2.2.2.2.2.2.2.2, ← hsh,
    parseIntChars_intChars]
  simp

theorem parseInline_str (dt : Bool) (s : String) : parseInline dt (strTxt s) = some (.str s) := by
  by_cases hsp : safePlainL s.data
  · rw [strTxt, if_pos hsp]
    obtain ⟨c, rest, hsh, ha, hp, hn, ht, hf⟩ := safePlainL_parts hsp
    have e1 : (c == '[') = false := beq_eq_false_iff_ne.mpr (ne_of_pred ha (by rfl))
    have e2 : (c == '{') = false := beq_eq_false_iff_ne.mpr (ne_of_pred ha (by rfl))
    have e3 : (c == '"') = false := beq_eq_false_iff_ne.mpr (ne_of_pred ha (by rfl))
    have e4 : tagStrTail (c :: rest) = none := tagStrTail_none rest (ne_of_pred ha (by rfl))
    rw [hsh]
    unfold parseInline
    simp only [List.cons_beq_cons, e1, e2, e3, Bool.false_and, Bool.false_eq_true, if_false, e4]
    rw [← hsh, resolvePlain_safePlain dt hsp, mk_data]
  · rw [strTxt, if_neg hsp, quoteTxt]
    unfold parseInline
    simp only [List.cons_beq_cons, show (('"' : Char) == '[') = false from rfl,
      show (('"' : Char) == '{') = false from rfl, Bool.false_and, Bool.false_eq_true, if_false,
      beq_self_eq_true, if_true]
    rw [show escAll s.data ++ ['"'] = escAll s.data ++ '"' :: [] from rfl, scanQ_escAll]

theorem parseInline_inline (dt : Bool) (v : Node) (hi : isInlineN v = true)
    (hdt : dtFree v = true) : parseInline dt (inlineTxt v) = some v := by
  cases v with
  | null => cases dt <;> rfl
  | bool b => cases b <;> cases dt <;> rfl
  | int i => exact parseInline_int dt i
  | str s => exact parseInline_str dt s
  | date y m d => exact absurd hdt (by simp [dtFree])
  | datetime d => exact absurd hdt (by simp [dtFree])
  | seq xs =>
    have : xs = [] := List.isEmpty_iff.mp hi
    subst this
    cases dt <;> rfl
  | map es =>
    have : es = [] := List.isEmpty_iff.mp hi
    subst this
    cases dt <;> rfl

theorem splitEntry_none {cs : List Char} (hq : ∀ c0, cs.head? = some c0 → c0 ≠ '"')
    (hcol : ∀ c ∈ cs, c ≠ ':') : splitEntry cs = none := by
  cases cs with
  | nil => rfl
  | cons c rest =>
    have e1 : (c == '"') = false := beq_eq_false_iff_ne.mpr (hq c rfl)
    unfold splitEntry
    simp only [e1, Bool.false_eq_true, if_false, splitCS_none hcol, endsWithC_false hcol]

theorem splitEntry_quoted_scalar (cs : List Char) :
    splitEntry ('"' :: (escAll cs ++ ['"'])) = none := by
  unfold splitEntry
  simp only [beq_self_eq_true, if_true]
  rw [show escAll cs ++ ['"'] = escAll cs ++ '"' :: [] from rfl, scanQ_escAll]

theorem safePlain_mem_ne {c : Char} {rest : List Char} (ha : c.isAlpha = true)
    (hp : rest.all isPlainChar = true) :
    ∀ d ∈ c :: rest, d ≠ ':' ∧ d ≠ '\n' ∧ d ≠ '"' := by
  intro d hd
  rcases List.mem_cons.mp hd with rfl | hmem
  · exact ⟨ne_of_pred ha (by rfl), ne_of_pred ha (by rfl), ne_of_pred ha (by rfl)⟩
  · have hpd : isPlainChar d = true := List.all_eq_true.mp hp d hmem
    exact ⟨ne_of_pred hpd (by rfl), ne_of_pred hpd (by rfl), ne_of_pred hpd (by rfl)⟩

theorem dashTail_inline (v : Node) (hdt : dtFree v = true) :
    dashTail (inlineTxt v) = none := by
  cases v with
  | null => exact dashTail_none1 _ (by decide)
  | bool b => cases b <;> exact dashTail_none1 _ (by decide)
  | int i =>
    cases i with
    | ofNat n =>
      obtain ⟨c, cs, hc⟩ := List.exists_cons_of_ne_nil (natDigits_ne_nil n)
      obtain ⟨k, hk, rfl⟩ := natDigits_mem n c (hc ▸ List.mem_cons_self c cs)
      show dashTail (natDigits n) = none
      rw [hc]
      exact dashTail_none1 _ (digit_bundle k hk).2.2.1
    | negSucc n =>
      obtain ⟨c, cs, hc⟩ := List.exists_cons_of_ne_nil (natDigits_ne_nil (n + 1))
      obtain ⟨k, hk, rfl⟩ := natDigits_mem (n + 1) c (hc ▸ List.mem_cons_self c cs)
      show dashTail ('-' :: natDigits (n + 1)) = none
      rw [hc]
      exact dashTail_none2 _ _ (digit_bundle k hk).2.2.2.2.2.2.2.2.1
  | str s =>
    by_cases hsp : safePlainL s.data
    · obtain ⟨c, rest, hsh, ha, _, _, _, _⟩ := safePlainL_parts hsp
      show dashTail (strTxt s) = none
      rw [strTxt, if_pos hsp, hsh]
      exact dashTail_none1 _ (ne_of_pred ha (by rfl))
    · show dashTail (strTxt s) = none
      rw [strTxt, if_neg hsp, quoteTxt]
      exact dashTail_none1 _ (by decide)
  | date y m d => exact absurd hdt (by simp [dtFree])
  | datetime d => exact absurd hdt (by simp [dtFree])
  | seq xs =>
    cases xs with
    | nil => exact dashTail_none1 _ (by decide)
    | cons x xs => exact dashTail_none1 _ (by decide)
  | map es =>
    cases es with
    | nil => exact dashTail_none1 _ (by decide)
    | cons e es => exact dashTail_none1 _ (by decide)

theorem splitEntry_inline (v : Node) (hi : isInlineN v = true) (hdt : dtFree v = true) :
    splitEntry (inlineTxt v) = none := by
  cases v with
  | null => rfl
  | bool b => cases b <;> rfl
  | int i =>
    obtain ⟨c, cs, hsh, hc, hcs⟩ := intChars_shape i
    show splitEntry (intChars i) = none
    refine splitEntry_none (fun c0 h0 => ?_) (fun d hd => (intChars_mem_ne d hd).1)
    rw [hsh] at h0
    cases h0
    exact (intHead_facts hc).1
  | str s =>
    by_cases hsp : safePlainL s.data
    · obtain ⟨c, rest, hsh, ha, hp, _, _, _⟩ := safePlainL_parts hsp
      show splitEntry (strTxt s) = none
      rw [strTxt, if_pos hsp, hsh]
      refine splitEntry_none (fun c0 h0 => ?_) (fun d hd => (safePlain_mem_ne ha hp d hd).1)
      cases h0
      exact ne_of_pred ha (by rfl)
    · show splitEntry (strTxt s) = none
      rw [strTxt, if_neg hsp, quoteTxt]
      exact splitEntry_quoted_scalar s.data
  | date y m d => exact absurd hdt (by simp [dtFree])
  | datetime d => exact absurd hdt (by simp [dtFree])
  | seq xs =>
    have : xs = [] := List.isEmpty_iff.mp hi
    subst this
    rfl
  | map es =>
    have : es = [] := List.isEmpty_iff.mp hi
    subst this
    rfl

/-! ### Mapping entry lines -/

theorem splitEntry_key_inline (k : String) (w : List Char) :
    splitEntry (strTxt k ++ ':' :: ' ' :: w) = some (k, some w) := by
  by_cases hsp : safePlainL k.data
  · obtain ⟨c, rest, hsh, ha, hp, _, _, _⟩ := safePlainL_parts hsp
    rw [strTxt, if_pos hsp, hsh, List.cons_append]
    have e1 : (c == '"') = false := beq_eq_false_iff_ne.mpr (ne_of_pred ha (by rfl))
    unfold splitEntry
    simp only [e1, Bool.false_eq_true, if_false]
    rw [← List.cons_append, ← hsh,
      splitCS_sep w (fun d hd => ((hsh ▸ safePlain_mem_ne ha hp) d hd).1), mk_data]
  · rw [strTxt, if_neg hsp, quoteTxt, List.cons_append]
    unfold splitEntry
    simp only [beq_self_eq_true, if_true]
    rw [List.append_assoc, List.singleton_append, scanQ_escAll]
    simp [mk_data]

theorem splitEntry_key_block (k : String) :
    splitEntry (strTxt k ++ [':']) = some (k, none) := by
  by_cases hsp : safePlainL k.data
  · obtain ⟨c, rest, hsh, ha, hp, _, _, _⟩ := safePlainL_parts hsp
    rw [strTxt, if_pos hsp, hsh, List.cons_append]
    have e1 : (c == '"') = false := beq_eq_false_iff_ne.mpr (ne_of_pred ha (by rfl))
    unfold splitEntry
    simp only [e1, Bool.false_eq_true, if_false]
    rw [← List.cons_append, ← hsh,
      splitCS_colon_end (fun d hd => ((hsh ▸ safePlain_mem_ne ha hp) d hd).1)]
    have hcolon : endsWithC ':' (k.data ++ [':']) = true := endsWithC_append_single ':' k.data
    rw [hcolon]
    simp [dropLastC_append_single, mk_data]
  · rw [strTxt, if_neg hsp, quoteTxt, List.cons_append]
    unfold splitEntry
    simp only [beq_self_eq_true, if_true]
    rw [List.append_assoc, List.singleton_append, scanQ_escAll]
    simp [mk_data]

theorem strTxt_head_ne_dash (k : String) (X : List Char) :
    dashTail (strTxt k ++ X) = none := by
  by_cases hsp : safePlainL k.data
  · obtain ⟨c, rest, hsh, ha, _, _, _, _⟩ := safePlainL_parts hsp
    rw [strTxt, if_pos hsp, hsh, List.cons_append]
    exact dashTail_none1 _ (ne_of_pred ha (by rfl))
  · rw [strTxt, if_neg hsp, quoteTxt, List.cons_append]
    exact dashTail_none1 _ (by decide)

/-! ### Emitted line shapes and stop conditions -/

theorem emit_shape_aux (N : Nat) : ∀ v ind, nsize v ≤ N →
    ∃ c0 tail, emitLines v ind = (ind, c0) :: tail := by
  induction N with
  | zero =>
    intro v ind h
    cases v <;> simp [nsize, nsizeL, nsizeE] at h
  | succ n ih =>
    intro v ind h
    cases v with
    | seq xs =>
      cases xs with
      | nil => exact ⟨['[', ']'], [], rfl⟩
      | cons x xs =>
        have hx : nsize x ≤ n := by
          simp only [nsize, nsizeL] at h
          omega
        obtain ⟨c0, tail, hx0⟩ := ih x (ind + 2) hx
        refine ⟨'-' :: ' ' :: c0, tail ++ emitItems xs ind, ?_⟩
        show emitItems (x :: xs) ind = _
        rw [emitItems, hx0]
        simp
    | map es =>
      cases es with
      | nil => exact ⟨['{', '}'], [], rfl⟩
      | cons e es =>
        obtain ⟨k, v⟩ := e
        by_cases hv : isInlineN v = true
        · exact ⟨strTxt k ++ ':' :: ' ' :: inlineTxt v, emitEntries es ind, by
            show emitEntries ((k, v) :: es) ind = _
            rw [emitEntries, if_pos hv]
            simp⟩
        · exact ⟨strTxt k ++ [':'], emitLines v (ind + 2) ++ emitEntries es ind, by
            show emitEntries ((k, v) :: es) ind = _
            rw [emitEntries, if_neg hv]
            simp⟩
    | null => exact ⟨_, [], rfl⟩
    | bool b => exact ⟨_, [], rfl⟩
    | int i => exact ⟨_, [], rfl⟩
    | str s => exact ⟨_, [], rfl⟩
    | date y m d => exact ⟨_, [], rfl⟩
    | datetime d => exact ⟨_, [], rfl⟩

theorem emitLines_shape (v : Node) (ind : Nat) :
    ∃ c0 tail, emitLines v ind = (ind, c0) :: tail :=
  emit_shape_aux (nsize v) v ind le_rfl

theorem stopOk_mono {ind ind' : Nat} (h : ind ≤ ind') {ls : List (Nat × List Char)}
    (hs : stopOk ind ls) : stopOk ind' ls := by
  cases ls with
  | nil => trivial
  | cons l t =>
    obtain ⟨li, c⟩ := l
    simp only [stopOk] at hs ⊢
    omega

theorem stopOk_emitItems (xs : List Node) (ind : Nat) {rest : List (Nat × List Char)}
    (h : stopOk ind rest) : stopOk (ind + 2) (emitItems xs ind ++ rest) := by
  cases xs with
  | nil => exact stopOk_mono (by omega) h
  | cons x xs =>
    obtain ⟨c0, tail, hx0⟩ := emitLines_shape x (ind + 2)
    show stopOk (ind + 2) (emitItems (x :: xs) ind ++ rest)
    rw [emitItems, hx0]
    simp only [List.cons_append, stopOk]
    omega

theorem stopOk_emitEntries (es : List (String × Node)) (ind : Nat)
    {rest : List (Nat × List Char)} (h : stopOk ind rest) :
    stopOk (ind + 2) (emitEntries es ind ++ rest) := by
  cases es with
  | nil => exact stopOk_mono (by omega) h
  | cons e es =>
    obtain ⟨k, v⟩ := e
    show stopOk (ind + 2) (emitEntries ((k, v) :: es) ind ++ rest)
    rw [emitEntries]
    by_cases hv : isInlineN v = true
    · rw [if_pos hv]
      simp only [List.cons_append, List.nil_append, stopOk]
      omega
    · rw [if_neg hv]
      simp only [List.cons_append, stopOk]
      omega

/-! ### The parser inverts the emitter -/

theorem nsize_pos (v : Node) : 1 ≤ nsize v := by cases v <;> simp [nsize]

theorem nsizeL_pos (xs : List Node) : 1 ≤ nsizeL xs := by
  cases xs with
  | nil => simp [nsizeL]
  | cons x xs => simp only [nsizeL]; omega

theorem nsizeE_pos (es : List (String × Node)) : 1 ≤ nsizeE es := by
  cases es with
  | nil => simp [nsizeE]
  | cons e es => obtain ⟨k, v⟩ := e; simp [nsizeE]; omega

theorem parseVal_scalar (dt : Bool) (f ind : Nat) (rest : List (Nat × List Char)) (v : Node)
    (hi : isInlineN v = true) (hdt : dtFree v = true) :
    parseVal dt (f + 1) ind ((ind, inlineTxt v) :: rest) = some (v, rest) := by
  rw [parseVal]
  simp only [ne_eq, not_true_eq_false, if_false, ite_false, reduceIte]
  rw [dashTail_inline v hdt, splitEntry_inline v hi hdt, parseInline_inline dt v hi hdt]

theorem parseItems_stop {dt : Bool} {fuel ind li : Nat} {c : List Char}
    {ls : List (Nat × List Char)} (h : li ≠ ind) :
    parseItems dt (fuel + 1) ind ((li, c) :: ls) = some ([], (li, c) :: ls) := by
  rw [parseItems]
  cases hd : dashTail c with
  | none => rfl
  | some r => simp [h]

theorem parseEntries_stop {dt : Bool} {fuel ind li : Nat} {c : List Char}
    {ls : List (Nat × List Char)} (h : li ≠ ind) :
    parseEntries dt (fuel + 1) ind ((li, c) :: ls) = some ([], (li, c) :: ls) := by
  rw [parseEntries]
  simp [h]

theorem roundtrip_main : ∀ N : Nat,
    (∀ v, nsize v ≤ N → dtFree v = true → ∀ dt ind fuel rest, nsize v ≤ fuel →
      stopOk ind rest →
      parseVal dt fuel ind (emitLines v ind ++ rest) = some (v, rest)) ∧
    (∀ xs, nsizeL xs ≤ N → dtFreeL xs = true → ∀ dt ind fuel rest, nsizeL xs ≤ fuel →
      stopOk ind rest →
      parseItems dt fuel ind (emitItems xs ind ++ rest) = some (xs, rest)) ∧
    (∀ es, nsizeE es ≤ N → dtFreeE es = true → ∀ dt ind fuel rest, nsizeE es ≤ fuel →
      stopOk ind rest →
      parseEntries dt fuel ind (emitEntries es ind ++ rest) = some (es, rest)) := by
  intro N
  induction N using Nat.strong_induction_on with
  | _ N ih =>
  refine ⟨?_, ?_, ?_⟩
  · intro v hN hdt dt ind fuel rest hfuel hstop
    obtain ⟨f, rfl⟩ : ∃ f, fuel = f + 1 := ⟨fuel - 1, by have := nsize_pos v; omega⟩
    cases v with
    | null => exact parseVal_scalar dt f ind rest .null rfl rfl
    | bool b => exact parseVal_scalar dt f ind rest (.bool b) rfl rfl
    | int i => exact parseVal_scalar dt f ind rest (.int i) rfl rfl
    | str s => exact parseVal_scalar dt f ind rest (.str s) rfl rfl
    | date y m d => exact absurd hdt (by simp [dtFree])
    | datetime d0 => exact absurd hdt (by simp [dtFree])
    | seq xs =>
      cases xs with
      | nil => exact parseVal_scalar dt f ind rest (.seq []) rfl rfl
      | cons x xs =>
        obtain ⟨c0, tailx, hx0⟩ := emitLines_shape x (ind + 2)
        have e0 : nsize (Node.seq (x :: xs)) = 1 + (1 + nsize x + nsizeL xs) := rfl
        have hdts : dtFree x = true ∧ dtFreeL xs = true := by
          have e2 : dtFree (Node.seq (x :: xs)) = (dtFree x && dtFreeL xs) := rfl
          rw [e2] at hdt
          simpa using hdt
        have hPx := (ih (nsize x) (by omega)).1 x le_rfl hdts.1
        have hQxs := (ih (nsizeL xs) (by omega)).2.1 xs le_rfl hdts.2
        have hemit : emitLines (Node.seq (x :: xs)) ind ++ rest =
            (ind, '-' :: ' ' :: c0) :: (tailx ++ (emitItems xs ind ++ rest)) := by
          show emitItems (x :: xs) ind ++ rest = _
          rw [emitItems, hx0]
          simp
        have harg : (ind + 2, c0) :: (tailx ++ (emitItems xs ind ++ rest)) =
            emitLines x (ind + 2) ++ (emitItems xs ind ++ rest) := by
          rw [hx0]
          rfl
        rw [hemit, parseVal]
        simp only [ne_eq, not_true_eq_false, if_false, ite_false, reduceIte, dashTail_dash]
        rw [harg]
        simp only [hPx dt (ind + 2) f (emitItems xs ind ++ rest) (by omega)
            (stopOk_emitItems xs ind hstop),
          hQxs dt ind f rest (by omega) hstop]
    | map es =>
      cases es with
      | nil => exact parseVal_scalar dt f ind rest (.map []) rfl rfl
      | cons e es =>
        obtain ⟨k, v⟩ := e
        have e0 : nsize (Node.map ((k, v) :: es)) = 1 + (1 + nsize v + nsizeE es) := rfl
        have hdts : dtFree v = true ∧ dtFreeE es = true := by
          have e2 : dtFree (Node.map ((k, v) :: es)) = (dtFree v && dtFreeE es) := rfl
          rw [e2] at hdt
          simpa using hdt
        have hRes := (ih (nsizeE es) (by omega)).2.2 es le_rfl hdts.2
        by_cases hv : isInlineN v = true
        · have hemit : emitLines (Node.map ((k, v) :: es)) ind ++ rest =
              (ind, strTxt k ++ ':' :: ' ' :: inlineTxt v) :: (emitEntries es ind ++ rest) := by
            show emitEntries ((k, v) :: es) ind ++ rest = _
            rw [emitEntries, if_pos hv]
            simp
          rw [hemit, parseVal]
          simp only [ne_eq, not_true_eq_false, if_false, ite_false, reduceIte,
            strTxt_head_ne_dash, splitEntry_key_inline, parseInline_inline dt v hv hdts.1,
            hRes dt ind f rest (by omega) hstop]
        · have hPv := (ih (nsize v) (by omega)).1 v le_rfl hdts.1
          have hemit : emitLines (Node.map ((k, v) :: es)) ind ++ rest =
              (ind, strTxt k ++ [':']) ::
                (emitLines v (ind + 2) ++ (emitEntries es ind ++ rest)) := by
            show emitEntries ((k, v) :: es) ind ++ rest = _
            rw [emitEntries, if_neg hv]
            simp
          rw [hemit, parseVal]
          simp only [ne_eq, not_true_eq_false, if_false, ite_false, reduceIte,
            strTxt_head_ne_dash, splitEntry_key_block]
          simp only [hPv dt (ind + 2) f (emitEntries es ind ++ rest) (by omega)
              (stopOk_emitEntries es ind hstop),
            hRes dt ind f rest (by omega) hstop]
  · intro xs hN hdt dt ind fuel rest hfuel hstop
    obtain ⟨f, rfl⟩ : ∃ f, fuel = f + 1 := ⟨fuel - 1, by have := nsizeL_pos xs; omega⟩
    cases xs with
    | nil =>
      show parseItems dt (f + 1) ind ([] ++ rest) = some ([], rest)
      rw [List.nil_append]
      cases rest with
      | nil => rfl
      | cons l t =>
        obtain ⟨li, c⟩ := l
        have hne : li ≠ ind := by
          simp only [stopOk] at hstop
          omega
        exact parseItems_stop hne
    | cons x xs =>
      obtain ⟨c0, tailx, hx0⟩ := emitLines_shape x (ind + 2)
      have e0 : nsizeL (x :: xs) = 1 + nsize x + nsizeL xs := rfl
      have hdts : dtFree x = true ∧ dtFreeL xs = true := by
        have e2 : dtFreeL (x :: xs) = (dtFree x && dtFreeL xs) := rfl
        rw [e2] at hdt
        simpa using hdt
      have hPx := (ih (nsize x) (by omega)).1 x le_rfl hdts.1
      have hQxs := (ih (nsizeL xs) (by omega)).2.1 xs le_rfl hdts.2
      have hemit : emitItems (x :: xs) ind ++ rest =
          (ind, '-' :: ' ' :: c0) :: (tailx ++ (emitItems xs ind ++ rest)) := by
        rw [emitItems, hx0]
        simp
      have harg : (ind + 2, c0) :: (tailx ++ (emitItems xs ind ++ rest)) =
          emitLines x (ind + 2) ++ (emitItems xs ind ++ rest) := by
        rw [hx0]
        rfl
      rw [hemit, parseItems]
      simp only [dashTail_dash, eq_self_iff_true, if_true, ite_true]
      rw [harg]
      simp only [hPx dt (ind + 2) f (emitItems xs ind ++ rest) (by omega)
          (stopOk_emitItems xs ind hstop),
        hQxs dt ind f rest (by omega) hstop]
  · intro es hN hdt dt ind fuel rest hfuel hstop
    obtain ⟨f, rfl⟩ : ∃ f, fuel = f + 1 := ⟨fuel - 1, by have := nsizeE_pos es; omega⟩
    cases es with
    | nil =>
      show parseEntries dt (f + 1) ind ([] ++ rest) = some ([], rest)
      rw [List.nil_append]
      cases rest with
      | nil => rfl
      | cons l t =>
        obtain ⟨li, c⟩ := l
        have hne : li ≠ ind := by
          simp only [stopOk] at hstop
          omega
        exact parseEntries_stop hne
    | cons e es =>
      obtain ⟨k, v⟩ := e
      have e0 : nsizeE ((k, v) :: es) = 1 + nsize v + nsizeE es := rfl
      have hdts : dtFree v = true ∧ dtFreeE es = true := by
        have e2 : dtFreeE ((k, v) :: es) = (dtFree v && dtFreeE es) := rfl
        rw [e2] at hdt
        simpa using hdt
      have hRes := (ih (nsizeE es) (by omega)).2.2 es le_rfl hdts.2
      by_cases hv : isInlineN v = true
      · have hemit : emitEntries ((k, v) :: es) ind ++ rest =
            (ind, strTxt k ++ ':' :: ' ' :: inlineTxt v) :: (emitEntries es ind ++ rest) := by
          rw [emitEntries, if_pos hv]
          simp
        rw [hemit, parseEntries]
        simp only [eq_self_iff_true, if_true, ite_true, splitEntry_key_inline,
          parseInline_inline dt v hv hdts.1, hRes dt ind f rest (by omega) hstop]
      · have hPv := (ih (nsize v) (by omega)).1 v le_rfl hdts.1
        have hemit : emitEntries ((k, v) :: es) ind ++ rest =
            (ind, strTxt k ++ [':']) ::
              (emitLines v (ind + 2) ++ (emitEntries es ind ++ rest)) := by
          rw [emitEntries, if_neg hv]
          simp
        rw [hemit, parseEntries]
        simp only [eq_self_iff_true, if_true, ite_true, splitEntry_key_block]
        simp only [hPv dt (ind + 2) f (emitEntries es ind ++ rest) (by omega)
            (stopOk_emitEntries es ind hstop),
          hRes dt ind f rest (by omega) hstop]

/-! ### Emitted lines render and re-split cleanly -/

theorem escChar_ne_nl (c : Char) : ∀ d ∈ escChar c, d ≠ '\n' := by
  intro d hd
  by_cases h1 : c = '\\'
  · subst h1; simp [escChar] at hd; subst hd; decide
  · by_cases h2 : c = '"'
    · subst h2; simp [escChar] at hd; rcases hd with rfl | rfl <;> decide
    · by_cases h3 : c = '\n'
      · subst h3; simp [escChar] at hd; rcases hd with rfl | rfl <;> decide
      · by_cases h4 : c = '\t'
        · subst h4; simp [escChar] at hd; rcases hd with rfl | rfl <;> decide
        · by_cases h5 : c = '\x0d'
          · subst h5; simp [escChar] at hd; rcases hd with rfl | rfl <;> decide
          · have e1 : (c == '\\') = false := beq_eq_false_iff_ne.mpr h1
            have e2 : (c == '"') = false := beq_eq_false_iff_ne.mpr h2
            have e3 : (c == '\n') = false := beq_eq_false_iff_ne.mpr h3
            have e4 : (c == '\t') = false := beq_eq_false_iff_ne.mpr h4
            have e5 : (c == '\x0d') = false := beq_eq_false_iff_ne.mpr h5
            rw [escChar] at hd
            simp only [e1, e2, e3, e4, e5, Bool.false_eq_true, if_false] at hd
            by_cases h6 : c.toNat < 32
            · rw [if_pos h6] at hd
              have hq := (hex_bundle (c.toNat / 16) (by omega)).2.2
              have hr := (hex_bundle (c.toNat % 16) (by omega)).2.2
              simp only [List.mem_cons, List.not_mem_nil, or_false] at hd
              rcases hd with rfl | rfl | rfl | rfl | rfl | rfl
              · decide
              · decide
              · decide
              · decide
              · exact hq
              · exact hr
            · rw [if_neg h6] at hd
              simp at hd
              subst hd
              exact h3

theorem escAll_ne_nl (cs : List Char) : ∀ d ∈ escAll cs, d ≠ '\n' := by
  induction cs with
  | nil => intro d hd; simp [escAll] at hd
  | cons c rest ih =>
    intro d hd
    rw [escAll] at hd
    rcases List.mem_append.mp hd with h | h
    · exact escChar_ne_nl c d h
    · exact ih d h

theorem strTxt_ne_nl (s : String) : ∀ d ∈ strTxt s, d ≠ '\n' := by
  intro d hd
  by_cases hsp : safePlainL s.data
  · rw [strTxt, if_pos hsp] at hd
    obtain ⟨c, rest, hsh, ha, hp, _, _, _⟩ := safePlainL_parts hsp
    exact (safePlain_mem_ne ha hp d (hsh ▸ hd)).2.1
  · rw [strTxt, if_neg hsp, quoteTxt] at hd
    rcases List.mem_cons.mp hd with rfl | h
    · decide
    · rcases List.mem_append.mp h with h2 | h2
      · exact escAll_ne_nl s.data d h2
      · simp at h2
        subst h2
        decide

theorem strTxt_good (k : String) : ∀ c0, (strTxt k).head? = some c0 → c0 ≠ ' ' := by
  intro c0 h0
  by_cases hsp : safePlainL k.data
  · rw [strTxt, if_pos hsp] at h0
    obtain ⟨c, rest, hsh, ha, _, _, _, _⟩ := safePlainL_parts hsp
    rw [hsh] at h0
    cases h0
    exact ne_of_pred ha (by rfl)
  · rw [strTxt, if_neg hsp, quoteTxt] at h0
    cases h0
    decide

/-- The three invariants of every emitted line's content: nonempty, does
not open with a space, and contains no newline. -/
def goodLine (p : Nat × List Char) : Prop :=
  p.2 ≠ [] ∧ (∀ c0, p.2.head? = some c0 → c0 ≠ ' ') ∧ ∀ d ∈ p.2, d ≠ '\n'

theorem inlineTxt_good (v : Node) (hi : isInlineN v = true) (hdt : dtFree v = true) :
    inlineTxt v ≠ [] ∧ (∀ c0, (inlineTxt v).head? = some c0 → c0 ≠ ' ') ∧
      ∀ d ∈ inlineTxt v, d ≠ '\n' := by
  cases v with
  | null => refine ⟨by decide, ?_, ?_⟩ <;> decide
  | bool b => cases b <;> exact ⟨by decide, by decide, by decide⟩
  | int i =>
    obtain ⟨c, cs, hsh, hc, hcs⟩ := intChars_shape i
    have e : inlineTxt (Node.int i) = c :: cs := hsh
    rw [e]
    refine ⟨by simp, fun c0 h0 => ?_,
      fun d hd => (intChars_mem_ne d (by rw [hsh]; exact hd)).2.1⟩
    cases h0
    rcases hc with rfl | ⟨k, hk, rfl⟩
    · decide
    · exact (digit_bundle k hk).2.2.2.2.2.2.2.2.1
  | str s =>
    obtain ⟨c1, rest1, hsh1⟩ : ∃ c1 rest1, strTxt s = c1 :: rest1 := by
      by_cases hsp : safePlainL s.data
      · obtain ⟨c, rest, hsh, _, _, _, _, _⟩ := safePlainL_parts hsp
        exact ⟨c, rest, by rw [strTxt, if_pos hsp, hsh]⟩
      · exact ⟨'"', escAll s.data ++ ['"'], by rw [strTxt, if_neg hsp, quoteTxt]⟩
    have e : inlineTxt (Node.str s) = c1 :: rest1 := hsh1
    rw [e]
    refine ⟨by simp, fun c0 h0 => ?_, fun d hd => strTxt_ne_nl s d (by rw [hsh1]; exact hd)⟩
    cases h0
    exact strTxt_good s c1 (by rw [hsh1]; rfl)
  | date y m d => exact absurd hdt (by simp [dtFree])
  | datetime d0 => exact absurd hdt (by simp [dtFree])
  | seq xs =>
    have : xs = [] := List.isEmpty_iff.mp hi
    subst this
    exact ⟨by decide, by decide, by decide⟩
  | map es =>
    have : es = [] := List.isEmpty_iff.mp hi
    subst this
    exact ⟨by decide, by decide, by decide⟩

theorem emit_good_aux (N : Nat) :
    (∀ v ind, nsize v ≤ N → dtFree v = true → ∀ l ∈ emitLines v ind, goodLine l) ∧
    (∀ xs ind, nsizeL xs ≤ N → dtFreeL xs = true → ∀ l ∈ emitItems xs ind, goodLine l) ∧
    (∀ es ind, nsizeE es ≤ N → dtFreeE es = true → ∀ l ∈ emitEntries es ind, goodLine l) := by
  induction N using Nat.strong_induction_on with
  | _ N ih =>
  have hscal : ∀ v ind, isInlineN v = true → dtFree v = true →
      ∀ l ∈ ([(ind, inlineTxt v)] : List (Nat × List Char)), goodLine l := by
    intro v ind hi hdt l hl
    simp at hl
    subst hl
    exact inlineTxt_good v hi hdt
  refine ⟨?_, ?_, ?_⟩
  · intro v ind hN hdt l hl
    cases v with
    | null => exact hscal .null ind rfl rfl l hl
    | bool b => exact hscal (.bool b) ind rfl rfl l hl
    | int i => exact hscal (.int i) ind rfl rfl l hl
    | str s => exact hscal (.str s) ind rfl rfl l hl
    | date y m d => exact absurd hdt (by simp [dtFree])
    | datetime d0 => exact absurd hdt (by simp [dtFree])
    | seq xs =>
      cases xs with
      | nil => exact hscal (.seq []) ind rfl rfl l hl
      | cons x xs =>
        have e0 : nsize (Node.seq (x :: xs)) = 1 + (1 + nsize x + nsizeL xs) := rfl
        have hdts : dtFree x = true ∧ dtFreeL xs = true := by
          have e2 : dtFree (Node.seq (x :: xs)) = (dtFree x && dtFreeL xs) := rfl
          rw [e2] at hdt
          simpa using hdt
        have : dtFreeL (x :: xs) = true := by
          show (dtFree x && dtFreeL xs) = true
          simp [hdts.1, hdts.2]
        have e1 : nsizeL (x :: xs) = 1 + nsize x + nsizeL xs := rfl
        exact (ih (nsizeL (x :: xs)) (by omega)).2.1 (x :: xs) ind le_rfl this l hl
    | map es =>
      cases es with
      | nil => exact hscal (.map []) ind rfl rfl l hl
      | cons e es =>
        obtain ⟨k, v⟩ := e
        have e0 : nsize (Node.map ((k, v) :: es)) = 1 + (1 + nsize v + nsizeE es) := rfl
        have hdtE : dtFreeE ((k, v) :: es) = true := hdt
        exact (ih (nsizeE ((k, v) :: es)) (by
          have : nsizeE ((k, v) :: es) = 1 + nsize v + nsizeE es := rfl
          omega)).2.2 ((k, v) :: es) ind le_rfl hdtE l hl
  · intro xs ind hN hdt l hl
    cases xs with
    | nil => simp [emitItems] at hl
    | cons x xs =>
      obtain ⟨c0, tailx, hx0⟩ := emitLines_shape x (ind + 2)
      have e0 : nsizeL (x :: xs) = 1 + nsize x + nsizeL xs := rfl
      have hdts : dtFree x = true ∧ dtFreeL xs = true := by
        have e2 : dtFreeL (x :: xs) = (dtFree x && dtFreeL xs) := rfl
        rw [e2] at hdt
        simpa using hdt
      have hchild := (ih (nsize x) (by omega)).1 x (ind + 2) le_rfl hdts.1
      rw [emitItems, hx0] at hl
      simp only [List.cons_append, List.mem_cons, List.mem_append] at hl
      rcases hl with rfl | h | h
      · have hgood := hchild (ind + 2, c0) (by rw [hx0]; exact List.mem_cons_self _ _)
        refine ⟨by simp, fun cc hcc => ?_, fun d hd => ?_⟩
        · cases hcc
          decide
        · rcases List.mem_cons.mp hd with rfl | hd2
          · decide
          · rcases List.mem_cons.mp hd2 with rfl | hd3
            · decide
            · exact hgood.2.2 d hd3
      · exact hchild l (by rw [hx0]; exact List.mem_cons_of_mem _ h)
      · exact (ih (nsizeL xs) (by omega)).2.1 xs ind le_rfl hdts.2 l h
  · intro es ind hN hdt l hl
    cases es with
    | nil => simp [emitEntries] at hl
    | cons e es =>
      obtain ⟨k, v⟩ := e
      have e0 : nsizeE ((k, v) :: es) = 1 + nsize v + nsizeE es := rfl
      have hdts : dtFree v = true ∧ dtFreeE es = true := by
        have e2 : dtFreeE ((k, v) :: es) = (dtFree v && dtFreeE es) := rfl
        rw [e2] at hdt
        simpa using hdt
      have hrest := (ih (nsizeE es) (by omega)).2.2 es ind le_rfl hdts.2
      rw [emitEntries] at hl
      by_cases hv : isInlineN v = true
      · rw [if_pos hv] at hl
        rcases List.mem_append.mp hl with h | h
        · simp at h
          subst h
          have hitxt := inlineTxt_good v hv hdts.1
          obtain ⟨c1, rest1, hsh1⟩ : ∃ c1 rest1, strTxt k = c1 :: rest1 := by
            by_cases hsp : safePlainL k.data
            · obtain ⟨c, rest, hsh, _, _, _, _, _⟩ := safePlainL_parts hsp
              exact ⟨c, rest, by rw [strTxt, if_pos hsp, hsh]⟩
            · exact ⟨'"', escAll k.data ++ ['"'], by rw [strTxt, if_neg hsp, quoteTxt]⟩
          refine ⟨by simp [hsh1], fun cc hcc => ?_, fun d hd => ?_⟩
          · rw [hsh1, List.cons_append] at hcc
            cases hcc
            exact strTxt_good k c1 (by rw [hsh1]; rfl)
          · simp only [List.mem_append, List.mem_cons] at hd
            rcases hd with h2 | rfl | rfl | h2
            · exact strTxt_ne_nl k d h2
            · decide
            · decide
            · exact hitxt.2.2 d h2
        · exact hrest l h
      · rw [if_neg hv] at hl
        rcases List.mem_append.mp hl with h | h
        · rcases List.mem_cons.mp h with rfl | h2
          · obtain ⟨c1, rest1, hsh1⟩ : ∃ c1 rest1, strTxt k = c1 :: rest1 := by
              by_cases hsp : safePlainL k.data
              · obtain ⟨c, rest, hsh, _, _, _, _, _⟩ := safePlainL_parts hsp
                exact ⟨c, rest, by rw [strTxt, if_pos hsp, hsh]⟩
              · exact ⟨'"', escAll k.data ++ ['"'], by rw [strTxt, if_neg hsp, quoteTxt]⟩
            refine ⟨by simp [hsh1], fun cc hcc => ?_, fun d hd => ?_⟩
            · rw [hsh1, List.cons_append] at hcc
              cases hcc
              exact strTxt_good k c1 (by rw [hsh1]; rfl)
            · simp only [List.mem_append, List.mem_cons, List.not_mem_nil, or_false] at hd
              rcases hd with h2 | rfl
              · exact strTxt_ne_nl k d h2
              · decide
          · exact (ih (nsize v) (by omega)).1 v (ind + 2) le_rfl hdts.1 l h2
        · exact hrest l h

theorem emitLines_good (v : Node) (ind : Nat) (hdt : dtFree v = true) :
    ∀ l ∈ emitLines v ind, goodLine l :=
  (emit_good_aux (nsize v)).1 v ind le_rfl hdt

theorem splitNl_no_nl {l : List Char} (h : ∀ d ∈ l, d ≠ '\n') : splitNl l = [l] := by
  induction l with
  | nil => rfl
  | cons c cs ih =>
    have e : (c == '\n') = false :=
      beq_eq_false_iff_ne.mpr (h c (List.mem_cons_self c cs))
    rw [splitNl]
    simp only [e, Bool.false_eq_true, if_false,
      ih (fun d hd => h d (List.mem_cons_of_mem c hd))]

theorem splitNl_append_nl {l : List Char} (rest : List Char) (h : ∀ d ∈ l, d ≠ '\n') :
    splitNl (l ++ '\n' :: rest) = l :: splitNl rest := by
  induction l with
  | nil => simp [splitNl]
  | cons c cs ih =>
    have e : (c == '\n') = false :=
      beq_eq_false_iff_ne.mpr (h c (List.mem_cons_self c cs))
    rw [List.cons_append, splitNl]
    simp only [e, Bool.false_eq_true, if_false,
      ih (fun d hd => h d (List.mem_cons_of_mem c hd))]

theorem splitNl_joinNl : ∀ rows : List (List Char), rows ≠ [] →
    (∀ r ∈ rows, ∀ d ∈ r, d ≠ '\n') → splitNl (joinNl rows) = rows := by
  intro rows
  induction rows with
  | nil => intro h; exact absurd rfl h
  | cons r rows ih =>
    intro _ hnl
    cases rows with
    | nil =>
      show splitNl (joinNl [r]) = [r]
      rw [joinNl]
      exact splitNl_no_nl (hnl r (List.mem_cons_self r []))
    | cons r2 rows2 =>
      show splitNl (joinNl (r :: r2 :: rows2)) = r :: r2 :: rows2
      rw [joinNl]
      rw [splitNl_append_nl _ (hnl r (List.mem_cons_self r _))]
      rw [ih (List.cons_ne_nil r2 rows2) (fun x hx => hnl x (List.mem_cons_of_mem r hx))]
      exact fun h => List.noConfusion h

theorem countSp_not_space {c : Char} (cs : List Char) (h : c ≠ ' ') :
    countSp (c :: cs) = 0 := by
  have e : (c == ' ') = false := beq_eq_false_iff_ne.mpr h
  simp [countSp, e]

theorem dropSp_not_space {c : Char} (cs : List Char) (h : c ≠ ' ') :
    dropSp (c :: cs) = c :: cs := by
  have e : (c == ' ') = false := beq_eq_false_iff_ne.mpr h
  simp [dropSp, e]

theorem countSp_replicate (n : Nat) (c : List Char) :
    countSp (List.replicate n ' ' ++ c) = n + countSp c := by
  induction n with
  | zero => simp
  | succ m ih => simp [List.replicate_succ, countSp, ih]; omega

theorem dropSp_replicate (n : Nat) (c : List Char) :
    dropSp (List.replicate n ' ' ++ c) = dropSp c := by
  induction n with
  | zero => simp
  | succ m ih => simp [List.replicate_succ, dropSp, ih]

theorem toLine_render {li : Nat} {c : List Char} (hg : goodLine (li, c)) :
    toLine (List.replicate li ' ' ++ c) = (li, c) := by
  obtain ⟨hne, hhd, _⟩ := hg
  obtain ⟨c0, cs, rfl⟩ := List.exists_cons_of_ne_nil hne
  have h0 : c0 ≠ ' ' := hhd c0 rfl
  rw [toLine, countSp_replicate, dropSp_replicate, countSp_not_space cs h0,
    dropSp_not_space cs h0]
  simp

theorem lineFuelL_append (a b : List (Nat × List Char)) :
    lineFuelL (a ++ b) + 1 = lineFuelL a + lineFuelL b := by
  induction a with
  | nil =>
    have e : lineFuelL ([] : List (Nat × List Char)) = 1 := rfl
    simp only [List.nil_append, e]
    omega
  | cons l t ih =>
    obtain ⟨li, c⟩ := l
    have e1 : lineFuelL ((li, c) :: t ++ b) = 2 * c.length + 3 + lineFuelL (t ++ b) := rfl
    have e2 : lineFuelL ((li, c) :: t) = 2 * c.length + 3 + lineFuelL t := rfl
    omega

theorem isInlineN_nsize_le {v : Node} (h : isInlineN v = true) : nsize v ≤ 2 := by
  cases v with
  | seq xs =>
    have : xs = [] := List.isEmpty_iff.mp h
    subst this
    simp [nsize, nsizeL]
  | map es =>
    have : es = [] := List.isEmpty_iff.mp h
    subst this
    simp [nsize, nsizeE]
  | null => simp [nsize]
  | bool b => simp [nsize]
  | int i => simp [nsize]
  | str s => simp [nsize]
  | date y m d => simp [nsize]
  | datetime d0 => simp [nsize]

theorem fuel_bound_aux (N : Nat) :
    (∀ v ind, nsize v ≤ N → nsize v + 2 ≤ lineFuelL (emitLines v ind)) ∧
    (∀ xs ind, nsizeL xs ≤ N → nsizeL xs ≤ lineFuelL (emitItems xs ind)) ∧
    (∀ es ind, nsizeE es ≤ N → nsizeE es ≤ lineFuelL (emitEntries es ind)) := by
  induction N using Nat.strong_induction_on with
  | _ N ih =>
  have hscal : ∀ v : Node, isInlineN v = true → ∀ ind,
      nsize v + 2 ≤ lineFuelL [(ind, inlineTxt v)] := by
    intro v hv ind
    have h2 := isInlineN_nsize_le hv
    have e : lineFuelL [(ind, inlineTxt v)] = 2 * (inlineTxt v).length + 3 + 1 := rfl
    omega
  refine ⟨?_, ?_, ?_⟩
  · intro v ind hN
    cases v with
    | null => exact hscal .null rfl ind
    | bool b => exact hscal (.bool b) rfl ind
    | int i => exact hscal (.int i) rfl ind
    | str s => exact hscal (.str s) rfl ind
    | date y m d => exact hscal (.date y m d) rfl ind
    | datetime d0 => exact hscal (.datetime d0) rfl ind
    | seq xs =>
      cases xs with
      | nil => exact hscal (.seq []) rfl ind
      | cons x xs =>
        have e0 : nsize (Node.seq (x :: xs)) = 1 + nsizeL (x :: xs) := rfl
        have e1 : nsizeL (x :: xs) = 1 + nsize x + nsizeL xs := rfl
        obtain ⟨c0, tailx, hx0⟩ := emitLines_shape x (ind + 2)
        have hxf := (ih (nsize x) (by omega)).1 x (ind + 2) le_rfl
        have hxsf := (ih (nsizeL xs) (by omega)).2.1 xs ind le_rfl
        have hemit : emitLines (Node.seq (x :: xs)) ind =
            (ind, '-' :: ' ' :: c0) :: (tailx ++ emitItems xs ind) := by
          show emitItems (x :: xs) ind = _
          rw [emitItems, hx0]
          simp
        rw [hemit]
        have e2 : lineFuelL ((ind, '-' :: ' ' :: c0) :: (tailx ++ emitItems xs ind)) =
            2 * ('-' :: ' ' :: c0).length + 3 + lineFuelL (tailx ++ emitItems xs ind) := rfl
        have e3 := lineFuelL_append tailx (emitItems xs ind)
        have e4 : lineFuelL (emitLines x (ind + 2)) = 2 * c0.length + 3 + lineFuelL tailx := by
          rw [hx0]
          rfl
        simp only [e2, List.length_cons]
        omega
    | map es =>
      cases es with
      | nil => exact hscal (.map []) rfl ind
      | cons e es =>
        obtain ⟨k, v⟩ := e
        have e0 : nsize (Node.map ((k, v) :: es)) = 1 + nsizeE ((k, v) :: es) := rfl
        have e1 : nsizeE ((k, v) :: es) = 1 + nsize v + nsizeE es := rfl
        have hesf := (ih (nsizeE es) (by omega)).2.2 es ind le_rfl
        by_cases hv : isInlineN v = true
        · have hvs := isInlineN_nsize_le hv
          have hemit : emitLines (Node.map ((k, v) :: es)) ind =
              (ind, strTxt k ++ ':' :: ' ' :: inlineTxt v) :: emitEntries es ind := by
            show emitEntries ((k, v) :: es) ind = _
            rw [emitEntries, if_pos hv]
            simp
          rw [hemit]
          have e2 : lineFuelL ((ind, strTxt k ++ ':' :: ' ' :: inlineTxt v) ::
              emitEntries es ind) =
              2 * (strTxt k ++ ':' :: ' ' :: inlineTxt v).length + 3 +
                lineFuelL (emitEntries es ind) := rfl
          simp only [e2, List.length_append, List.length_cons]
          omega
        · have hvf := (ih (nsize v) (by omega)).1 v (ind + 2) le_rfl
          have hemit : emitLines (Node.map ((k, v) :: es)) ind =
              (ind, strTxt k ++ [':']) :: (emitLines v (ind + 2) ++ emitEntries es ind) := by
            show emitEntries ((k, v) :: es) ind = _
            rw [emitEntries, if_neg hv]
            simp
          rw [hemit]
          have e2 : lineFuelL ((ind, strTxt k ++ [':']) ::
              (emitLines v (ind + 2) ++ emitEntries es ind)) =
              2 * (strTxt k ++ [':']).length + 3 +
                lineFuelL (emitLines v (ind + 2) ++ emitEntries es ind) := rfl
          have e3 := lineFuelL_append (emitLines v (ind + 2)) (emitEntries es ind)
          simp only [e2, List.length_append, List.length_cons]
          omega
  · intro xs ind hN
    cases xs with
    | nil =>
      have e : lineFuelL (emitItems [] ind) = 1 := rfl
      have e2 : nsizeL [] = 1 := rfl
      omega
    | cons x xs =>
      have e1 : nsizeL (x :: xs) = 1 + nsize x + nsizeL xs := rfl
      obtain ⟨c0, tailx, hx0⟩ := emitLines_shape x (ind + 2)
      have hxf := (ih (nsize x) (by omega)).1 x (ind + 2) le_rfl
      have hxsf := (ih (nsizeL xs) (by omega)).2.1 xs ind le_rfl
      have hemit : emitItems (x :: xs) ind =
          (ind, '-' :: ' ' :: c0) :: (tailx ++ emitItems xs ind) := by
        rw [emitItems, hx0]
        simp
      rw [hemit]
      have e2 : lineFuelL ((ind, '-' :: ' ' :: c0) :: (tailx ++ emitItems xs ind)) =
          2 * ('-' :: ' ' :: c0).length + 3 + lineFuelL (tailx ++ emitItems xs ind) := rfl
      have e3 := lineFuelL_append tailx (emitItems xs ind)
      have e4 : lineFuelL (emitLines x (ind + 2)) = 2 * c0.length + 3 + lineFuelL tailx := by
        rw [hx0]
        rfl
      simp only [e2, List.length_cons]
      omega
  · intro es ind hN
    cases es with
    | nil =>
      have e : lineFuelL (emitEntries [] ind) = 1 := rfl
      have e2 : nsizeE [] = 1 := rfl
      omega
    | cons e es =>
      obtain ⟨k, v⟩ := e
      have e1 : nsizeE ((k, v) :: es) = 1 + nsize v + nsizeE es := rfl
      have hesf := (ih (nsizeE es) (by omega)).2.2 es ind le_rfl
      by_cases hv : isInlineN v = true
      · have hvs := isInlineN_nsize_le hv
        have hemit : emitEntries ((k, v) :: es) ind =
            (ind, strTxt k ++ ':' :: ' ' :: inlineTxt v) :: emitEntries es ind := by
          rw [emitEntries, if_pos hv]
          simp
        rw [hemit]
        have e2 : lineFuelL ((ind, strTxt k ++ ':' :: ' ' :: inlineTxt v) ::
            emitEntries es ind) =
            2 * (strTxt k ++ ':' :: ' ' :: inlineTxt v).length + 3 +
              lineFuelL (emitEntries es ind) := rfl
        simp only [e2, List.length_append, List.length_cons]
        omega
      · have hvf := (ih (nsize v) (by omega)).1 v (ind + 2) le_rfl
        have hemit : emitEntries ((k, v) :: es) ind =
            (ind, strTxt k ++ [':']) :: (emitLines v (ind + 2) ++ emitEntries es ind) := by
          rw [emitEntries, if_neg hv]
          simp
        rw [hemit]
        have e2 : lineFuelL ((ind, strTxt k ++ [':']) ::
            (emitLines v (ind + 2) ++ emitEntries es ind)) =
            2 * (strTxt k ++ [':']).length + 3 +
              lineFuelL (emitLines v (ind + 2) ++ emitEntries es ind) := rfl
        have e3 := lineFuelL_append (emitLines v (ind + 2)) (emitEntries es ind)
        simp only [e2, List.length_append, List.length_cons]
        omega

theorem loads_dumpN (dt : Bool) (v : Node) (hdt : dtFree v = true) :
    loads dt (dumpN v) = some v := by
  have hgood := emitLines_good v 0 hdt
  have hdata : (dumpN v).data =
      ('-' :: '-' :: '-' :: '\n' :: renderLines (emitLines v 0)) := rfl
  have hnl3 : ∀ d ∈ (['-', '-', '-'] : List Char), d ≠ '\n' := by decide
  have hsplit : splitNl (dumpN v).data =
      ['-', '-', '-'] :: splitNl (renderLines (emitLines v 0)) := by
    rw [hdata]
    exact splitNl_append_nl _ hnl3
  have hrows : splitNl (renderLines (emitLines v 0)) =
      (emitLines v 0).map (fun p => List.replicate p.1 ' ' ++ p.2) := by
    rw [renderLines]
    refine splitNl_joinNl _ ?_ ?_
    · obtain ⟨c0, tail, h0⟩ := emitLines_shape v 0
      rw [h0]
      simp
    · intro r hr d hd
      obtain ⟨⟨li, c⟩, hmem, hre⟩ := List.mem_map.mp hr
      subst hre
      rcases List.mem_append.mp hd with h2 | h2
      · have := List.eq_of_mem_replicate h2
        subst this
        decide
      · exact (hgood (li, c) hmem).2.2 d h2
  have hmapline : ((emitLines v 0).map (fun p => List.replicate p.1 ' ' ++ p.2)).map toLine =
      emitLines v 0 := by
    rw [List.map_map]
    have : ∀ l ∈ emitLines v 0,
        (toLine ∘ fun p => List.replicate p.1 ' ' ++ p.2) l = id l := by
      intro l hl
      obtain ⟨li, c⟩ := l
      exact toLine_render (hgood (li, c) hl)
    rw [List.map_congr_left this, List.map_id]
  rw [loads, hsplit]
  simp only [beq_self_eq_true, if_true, reduceIte]
  rw [hrows, parseBody]
  obtain ⟨c0, tail, h0⟩ := emitLines_shape v 0
  have hne : (emitLines v 0).map (fun p => List.replicate p.1 ' ' ++ p.2) ≠ [] := by
    rw [h0]
    simp
  obtain ⟨r0, rt, hr0⟩ := List.exists_cons_of_ne_nil hne
  rw [hr0, ← hr0]
  simp only [hmapline]
  have hfuel : nsize v ≤ lineFuelL (emitLines v 0) := by
    have := (fuel_bound_aux (nsize v)).1 v 0 le_rfl
    omega
  have hparse := (roundtrip_main (nsize v)).1 v le_rfl hdt dt 0 (lineFuelL (emitLines v 0)) []
    hfuel trivial
  rw [List.append_nil] at hparse
  rw [hparse]
  intro hcontra
  obtain ⟨c1, tail1, h1⟩ := emitLines_shape v 0
  rw [h1] at hcontra
  simp at hcontra

/-! ### Loading with timestamps disabled never yields a date -/

theorem resolvePlain_false_dtFree (cs : List Char) :
    dtFree (resolvePlain false cs) = true := by
  unfold resolvePlain
  split
  · rfl
  · split
    · rfl
    · split
      · rfl
      · split
        · rfl
        · rfl

theorem parseInline_false_dtFree : ∀ cs v, parseInline false cs = some v → dtFree v = true := by
  intro cs v h
  unfold parseInline at h
  split at h
  · cases h
    rfl
  · split at h
    · cases h
      rfl
    · split at h
      · cases h
        exact resolvePlain_false_dtFree []
      · rename_i c rest
        split at h
        · split at h
          · cases h
            rfl
          · exact absurd h (by simp)
        · split at h
          · cases h
            rfl
          · cases h
            exact resolvePlain_false_dtFree _

theorem parse_dtFree : ∀ fuel : Nat,
    (∀ ind ls v rest, parseVal false fuel ind ls = some (v, rest) → dtFree v = true) ∧
    (∀ ind ls xs rest, parseItems false fuel ind ls = some (xs, rest) → dtFreeL xs = true) ∧
    (∀ ind ls es rest, parseEntries false fuel ind ls = some (es, rest) → dtFreeE es = true) := by
  intro fuel
  induction fuel with
  | zero =>
    refine ⟨?_, ?_, ?_⟩ <;> intro ind ls a rest h <;>
      exact absurd h (by simp [parseVal, parseItems, parseEntries])
  | succ f ih =>
    obtain ⟨ihV, ihI, ihE⟩ := ih
    have hEntryCase : ∀ ind (t : List (Nat × List Char)) (c : List Char) v rest,
        (match splitEntry c with
          | some (k, some vtxt) =>
            match parseInline false vtxt with
            | some v =>
              match parseEntries false f ind t with
              | some (es, ls1) => some (Node.map ((k, v) :: es), ls1)
              | none => none
            | none => none
          | some (k, none) =>
            match parseVal false f (ind + 2) t with
            | some (v, ls1) =>
              match parseEntries false f ind ls1 with
              | some (es, ls2) => some (Node.map ((k, v) :: es), ls2)
              | none => none
            | none => none
          | none =>
            match parseInline false c with
            | some v => some (v, t)
            | none => none) = some (v, rest) → dtFree v = true := by
      intro ind t c v rest h
      cases hse : splitEntry c with
      | some p =>
        obtain ⟨k, vt⟩ := p
        cases vt with
        | some vtxt =>
          simp only [hse] at h
          cases hvi : parseInline false vtxt with
          | none => simp [hvi] at h
          | some v0 =>
            simp only [hvi] at h
            cases hes : parseEntries false f ind t with
            | none => simp [hes] at h
            | some q =>
              obtain ⟨es, ls1⟩ := q
              simp only [hes] at h
              cases h
              show (dtFree v0 && dtFreeE es) = true
              simp [parseInline_false_dtFree _ _ hvi, ihE _ _ _ _ hes]
        | none =>
          simp only [hse] at h
          cases hv0 : parseVal false f (ind + 2) t with
          | none => simp [hv0] at h
          | some q =>
            obtain ⟨v0, ls1⟩ := q
            simp only [hv0] at h
            cases hes : parseEntries false f ind ls1 with
            | none => simp [hes] at h
            | some q2 =>
              obtain ⟨es, ls2⟩ := q2
              simp only [hes] at h
              cases h
              show (dtFree v0 && dtFreeE es) = true
              simp [ihV _ _ _ _ hv0, ihE _ _ _ _ hes]
      | none =>
        simp only [hse] at h
        cases hvi : parseInline false c with
        | none => simp [hvi] at h
        | some v0 =>
          simp only [hvi] at h
          cases h
          exact parseInline_false_dtFree _ _ hvi
    refine ⟨?_, ?_, ?_⟩
    · intro ind ls v rest h
      cases ls with
      | nil => exact absurd h (by rw [parseVal]; simp)
      | cons l t =>
        obtain ⟨li, c⟩ := l
        rw [parseVal] at h
        by_cases hli : li ≠ ind
        · rw [if_pos hli] at h
          exact absurd h (by simp)
        · rw [if_neg hli] at h
          cases hdt1 : dashTail c with
          | some r =>
            simp only [hdt1] at h
            cases hx : parseVal false f (ind + 2) ((ind + 2, r) :: t) with
            | none => simp [hx] at h
            | some p =>
              obtain ⟨x, ls1⟩ := p
              simp only [hx] at h
              cases hxs : parseItems false f ind ls1 with
              | none => simp [hxs] at h
              | some q =>
                obtain ⟨xs, ls2⟩ := q
                simp only [hxs] at h
                cases h
                show (dtFree x && dtFreeL xs) = true
                simp [ihV _ _ _ _ hx, ihI _ _ _ _ hxs]
          | none =>
            simp only [hdt1] at h
            exact hEntryCase ind t c v rest h
    · intro ind ls xs rest h
      cases ls with
      | nil =>
        rw [parseItems] at h
        cases h
        rfl
      | cons l t =>
        obtain ⟨li, c⟩ := l
        rw [parseItems] at h
        cases hdt1 : dashTail c with
        | some r =>
          simp only [hdt1] at h
          by_cases hli : li = ind
          · rw [if_pos hli] at h
            cases hx : parseVal false f (ind + 2) ((ind + 2, r) :: t) with
            | none => simp [hx] at h
            | some p =>
              obtain ⟨x, ls1⟩ := p
              simp only [hx] at h
              cases hxs : parseItems false f ind ls1 with
              | none => simp [hxs] at h
              | some q =>
                obtain ⟨xs2, ls2⟩ := q
                simp only [hxs] at h
                cases h
                show (dtFree x && dtFreeL xs2) = true
                simp [ihV _ _ _ _ hx, ihI _ _ _ _ hxs]
          · rw [if_neg hli] at h
            cases h
            rfl
        | none =>
          simp only [hdt1] at h
          cases h
          rfl
    · intro ind ls es rest h
      cases ls with
      | nil =>
        rw [parseEntries] at h
        cases h
        rfl
      | cons l t =>
        obtain ⟨li, c⟩ := l
        rw [parseEntries] at h
        by_cases hli : li = ind
        · rw [if_pos hli] at h
          cases hse : splitEntry c with
          | some p =>
            obtain ⟨k, vt⟩ := p
            cases vt with
            | some vtxt =>
              simp only [hse] at h
              cases hvi : parseInline false vtxt with
              | none => simp [hvi] at h
              | some v0 =>
                simp only [hvi] at h
                cases hes : parseEntries false f ind t with
                | none => simp [hes] at h
                | some q =>
                  obtain ⟨es2, ls1⟩ := q
                  simp only [hes] at h
                  cases h
                  show (dtFree v0 && dtFreeE es2) = true
                  simp [parseInline_false_dtFree _ _ hvi, ihE _ _ _ _ hes]
            | none =>
              simp only [hse] at h
              cases hv0 : parseVal false f (ind + 2) t with
              | none => simp [hv0] at h
              | some q =>
                obtain ⟨v0, ls1⟩ := q
                simp only [hv0] at h
                cases hes : parseEntries false f ind ls1 with
                | none => simp [hes] at h
                | some q2 =>
                  obtain ⟨es2, ls2⟩ := q2
                  simp only [hes] at h
                  cases h
                  show (dtFree v0 && dtFreeE es2) = true
                  simp [ihV _ _ _ _ hv0, ihE _ _ _ _ hes]
          | none =>
            simp only [hse] at h
            cases h
            rfl
        · rw [if_neg hli] at h
          cases h
          rfl

theorem parseBody_false_dtFree (rows : List (List Char)) (v : Node)
    (h : parseBody false rows = some v) : dtFree v = true := by
  cases rows with
  | nil =>
    rw [parseBody] at h
    cases h
    rfl
  | cons r0 rt =>
    rw [parseBody] at h
    · simp only [List.map_cons] at h
      cases hpv : parseVal false (lineFuelL (toLine r0 :: rt.map toLine)) 0
        (toLine r0 :: rt.map toLine) with
      | none => simp [hpv] at h
      | some p =>
        obtain ⟨v0, rem⟩ := p
        cases rem with
        | nil =>
          rw [hpv] at h
          have hv0 : v0 = v := by
            by_contra hne
            simp [hne] at h
          subst hv0
          exact (parse_dtFree _).1 _ _ _ _ hpv
        | cons a b => simp [hpv] at h
    · exact fun hh => List.noConfusion hh

theorem loads_false_dtFree (t : String) (v : Node) (h : loads false t = some v) :
    dtFree v = true := by
  rw [loads] at h
  cases hsp : splitNl t.data with
  | nil =>
    simp only [hsp] at h
    cases h
    rfl
  | cons first rest =>
    simp only [hsp] at h
    cases hfb : (first == ['-', '-', '-']) with
    | true =>
      rw [hfb, if_pos rfl] at h
      exact parseBody_false_dtFree rest v h
    | false =>
      rw [hfb, if_neg (by simp)] at h
      exact parseBody_false_dtFree (first :: rest) v h

/-! ### The host emitter refines the node emitter under default options -/

theorem useBlock_defaultOpts (cs : List Char) : useBlock defaultOpts cs = false := by
  simp [useBlock, defaultOpts]

theorem nodeToHostL_isEmpty (xs : List Node) : (nodeToHostL xs).isEmpty = xs.isEmpty := by
  cases xs <;> rfl

theorem nodeToHostE_isEmpty (es : List (String × Node)) :
    (nodeToHostE es).isEmpty = es.isEmpty := by
  cases es with
  | nil => rfl
  | cons e es => obtain ⟨k, v⟩ := e; rfl

theorem isInlineH_nodeToHost (v : Node) :
    isInlineH defaultOpts (nodeToHost v) = isInlineN v := by
  cases v with
  | seq xs => simp [nodeToHost, isInlineH, isInlineN, nodeToHostL_isEmpty]
  | map es => simp [nodeToHost, isInlineH, isInlineN, nodeToHostE_isEmpty]
  | str s => simp [nodeToHost, isInlineH, isInlineN, useBlock_defaultOpts]
  | null => rfl
  | bool b => rfl
  | int i => rfl
  | date y m d => rfl
  | datetime d => rfl

theorem inlineTxtH_nodeToHost (v : Node) : inlineTxtH (nodeToHost v) = inlineTxt v := by
  cases v with
  | bool b => cases b <;> rfl
  | null => rfl
  | int i => rfl
  | str s => rfl
  | date y m d => rfl
  | datetime d => rfl
  | seq xs => rfl
  | map es => rfl

theorem isBlockStr_nodeToHost (v : Node) :
    isBlockStr defaultOpts (nodeToHost v) = false := by
  cases v <;> simp [nodeToHost, isBlockStr, useBlock, defaultOpts]

theorem emitH_nodeToHost_aux (N : Nat) :
    (∀ v ind, nsize v ≤ N →
      emitH defaultOpts (nodeToHost v) ind = .ok (emitLines v ind)) ∧
    (∀ xs ind, nsizeL xs ≤ N →
      emitHItems defaultOpts (nodeToHostL xs) ind = .ok (emitItems xs ind)) ∧
    (∀ es ind, nsizeE es ≤ N →
      emitHEntries defaultOpts (nodeToHostE es) ind = .ok (emitEntries es ind)) := by
  induction N with
  | zero =>
    refine ⟨fun v ind h => ?_, fun xs ind h => ?_, fun es ind h => ?_⟩
    · have := nsize_pos v; omega
    · have := nsizeL_pos xs; omega
    · have := nsizeE_pos es; omega
  | succ n ih =>
    obtain ⟨ihV, ihL, ihE⟩ := ih
    refine ⟨fun v ind h => ?_, fun xs ind h => ?_, fun es ind h => ?_⟩
    · cases v with
      | seq xs =>
        cases xs with
        | nil => rfl
        | cons x xs =>
          have hx : nsizeL (x :: xs) ≤ n := by
            simp only [nsize] at h; omega
          show emitHItems defaultOpts (nodeToHostL (x :: xs)) ind = _
          rw [ihL (x :: xs) ind hx]
          rfl
      | map es =>
        cases es with
        | nil => rfl
        | cons e es =>
          obtain ⟨k, w⟩ := e
          have he : nsizeE ((k, w) :: es) ≤ n := by
            simp only [nsize] at h; omega
          show emitHEntries defaultOpts (nodeToHostE ((k, w) :: es)) ind = _
          rw [ihE ((k, w) :: es) ind he]
          rfl
      | null => rfl
      | bool b => cases b <;> rfl
      | int i => rfl
      | str s =>
        show emitH defaultOpts (.hstr s) ind = _
        rw [emitH, useBlock_defaultOpts]
        rfl
      | date y m d => rfl
      | datetime d => rfl
    · cases xs with
      | nil => rfl
      | cons x xs =>
        have hx : nsize x ≤ n := by simp only [nsizeL] at h; omega
        have hxs : nsizeL xs ≤ n := by simp only [nsizeL] at h; omega
        show emitHItems defaultOpts (nodeToHost x :: nodeToHostL xs) ind = _
        rw [emitHItems, ihV x (ind + 2) hx, ihL xs ind hxs]
        have hc : (!defaultOpts.compact && isMapH (nodeToHost x)) = false := by
          simp [defaultOpts]
        rw [hc]
        simp only [Bool.false_eq_true, if_false, ite_false]
        show _ = Except.ok (emitItems (x :: xs) ind)
        rw [emitItems]
        cases hx0 : emitLines x (ind + 2) with
        | nil => simp
        | cons l0 tl => obtain ⟨li, c⟩ := l0; simp
    · cases es with
      | nil => rfl
      | cons e es =>
        obtain ⟨k, w⟩ := e
        have hw : nsize w ≤ n := by simp only [nsizeE] at h; omega
        have hes : nsizeE es ≤ n := by simp only [nsizeE] at h; omega
        show emitHEntries defaultOpts ((k, nodeToHost w) :: nodeToHostE es) ind = _
        rw [emitHEntries]
        simp only [ihV w (ind + 2) hw, ihE es ind hes, isInlineH_nodeToHost,
          isBlockStr_nodeToHost, inlineTxtH_nodeToHost]
        show _ = Except.ok (emitEntries ((k, w) :: es) ind)
        rw [emitEntries]
        by_cases hwv : isInlineN w = true
        · simp [hwv]
        · simp [hwv]

theorem dumps_nodeToHost (v : Node) :
    dumps defaultOpts (nodeToHost v) = .ok (dumpN v) := by
  rw [dumps, (emitH_nodeToHost_aux (nsize v)).1 v 0 le_rfl]
  rfl

/-! ### Powers of ten render with a one followed by zeros -/

theorem natDigitsF_pow10 : ∀ (k f : Nat), k < f →
    natDigitsF f (10 ^ k) = '1' :: List.replicate k '0' := by
  intro k
  induction k with
  | zero =>
    intro f hf
    obtain ⟨g, rfl⟩ : ∃ g, f = g + 1 := ⟨f - 1, by omega⟩
    rw [pow_zero, natDigitsF, if_pos (by norm_num)]
    rfl
  | succ k ih =>
    intro f hf
    obtain ⟨g, rfl⟩ : ∃ g, f = g + 1 := ⟨f - 1, by omega⟩
    have h10 : ¬ 10 ^ (k + 1) < 10 := by
      have h1 : 10 ^ 1 ≤ 10 ^ (k + 1) := Nat.pow_le_pow_right (by norm_num) (by omega)
      simp only [pow_one] at h1
      omega
    rw [natDigitsF, if_neg h10]
    have hdiv : 10 ^ (k + 1) / 10 = 10 ^ k := by
      rw [pow_succ]
      exact Nat.mul_div_cancel _ (by norm_num)
    have hmod : 10 ^ (k + 1) % 10 = 0 := by
      rw [pow_succ]
      exact Nat.mul_mod_left _ _
    rw [hdiv, hmod, ih g (by omega)]
    have hz : digitChar 0 = '0' := rfl
    rw [hz, List.cons_append, ← List.replicate_succ']

theorem natDigits_pow10 (k : Nat) : natDigits (10 ^ k) = '1' :: List.replicate k '0' :=
  natDigitsF_pow10 k (10 ^ k + 1)
    (by have := Nat.lt_pow_self (by norm_num : (1 : Nat) < 10) k; omega)

theorem intChars_pow10 (k : Nat) :
    intChars ((10 : Int) ^ k) = '1' :: List.replicate k '0' := by
  have h : ((10 : Int) ^ k) = ((10 ^ k : Nat) : Int) := by
    push_cast
    ring
  rw [h]
  show natDigits (10 ^ k) = _
  exact natDigits_pow10 k

theorem intChars_neg_pow10 (k : Nat) :
    intChars (-((10 : Int) ^ k)) = '-' :: '1' :: List.replicate k '0' := by
  have h1 : 0 < 10 ^ k := Nat.pos_pow_of_pos k (by norm_num)
  obtain ⟨m, hm⟩ : ∃ m, 10 ^ k = m + 1 := ⟨10 ^ k - 1, by omega⟩
  have h : -((10 : Int) ^ k) = Int.negSucc m := by
    have h2 : ((10 : Int) ^ k) = ((m + 1 : Nat) : Int) := by
      rw [← hm]
      push_cast
      ring
    rw [h2]
    rfl
  rw [h]
  show '-' :: natDigits (m + 1) = _
  rw [← hm, natDigits_pow10 k]

/-! ### The timezone tail on space-separated suffixes -/

theorem countSpTab_rep (k : Nat) (c : Char) (cs : List Char)
    (h : (c == ' ' || c == '\t') = false) :
    countSpTab (List.replicate k ' ' ++ c :: cs) = k := by
  induction k with
  | zero =>
    show countSpTab (c :: cs) = 0
    rw [countSpTab, h]
    rfl
  | succ n ih =>
    show countSpTab (' ' :: (List.replicate n ' ' ++ c :: cs)) = n + 1
    rw [countSpTab, ih]
    rfl

theorem dropSpTab_rep (k : Nat) (c : Char) (cs : List Char)
    (h : (c == ' ' || c == '\t') = false) :
    dropSpTab (List.replicate k ' ' ++ c :: cs) = c :: cs := by
  induction k with
  | zero =>
    show dropSpTab (c :: cs) = c :: cs
    rw [dropSpTab, h]
    rfl
  | succ n ih =>
    show dropSpTab (' ' :: (List.replicate n ' ' ++ c :: cs)) = c :: cs
    rw [dropSpTab, ih]
    rfl

theorem parseTsTz_sp_Z (k : Nat) :
    parseTsTz (List.replicate k ' ' ++ ['Z']) = some (some 0) := by
  rw [parseTsTz, if_neg (by simp)]
  simp only [dropSpTab_rep k 'Z' [] (by decide)]

theorem parseTsTz_sp_z (k : Nat) :
    parseTsTz (List.replicate k ' ' ++ ['z']) =
      if 1 ≤ k then some (some 0) else none := by
  rw [parseTsTz, if_neg (by simp)]
  simp only [dropSpTab_rep k 'z' [] (by decide), countSpTab_rep k 'z' [] (by decide)]

/-! ### Trailing-zero trimming leaves no removable zero -/

theorem dropLead0_head_ne_zero : ∀ (m : Nat) (cs : List Char) (c0 : Char) (r : List Char),
    dropLead0 m cs = c0 :: r → m < r.length + 1 → c0 ≠ '0' := by
  intro m cs
  induction cs with
  | nil =>
    intro c0 r h
    rw [dropLead0] at h
    cases h
  | cons c rest ih =>
    intro c0 r h hm
    rw [dropLead0] at h
    by_cases hc : (c == '0' && decide (m < rest.length + 1)) = true
    · rw [if_pos hc] at h
      exact ih c0 r h hm
    · rw [if_neg hc] at h
      cases h
      intro hz
      simp only [Bool.and_eq_true, beq_iff_eq, decide_eq_true_eq, not_and] at hc
      exact hc hz hm

/-! ### An opaque value anywhere aborts the host emitter -/

theorem emitH_opaque_aux (N : Nat) :
    (∀ v : HostValue, sizeOf v ≤ N → ∀ opts ind t r, firstOpaque v = some (t, r) →
       emitH opts v ind = .error (serErr t r)) ∧
    (∀ v : HostValue, sizeOf v ≤ N → ∀ opts ind, firstOpaque v = none →
       ∃ ls, emitH opts v ind = .ok ls) ∧
    (∀ xs : List HostValue, sizeOf xs ≤ N → ∀ opts ind t r, firstOpaqueL xs = some (t, r) →
       emitHItems opts xs ind = .error (serErr t r)) ∧
    (∀ xs : List HostValue, sizeOf xs ≤ N → ∀ opts ind, firstOpaqueL xs = none →
       ∃ ls, emitHItems opts xs ind = .ok ls) ∧
    (∀ es : List (String × HostValue), sizeOf es ≤ N → ∀ opts ind t r,
       firstOpaqueE es = some (t, r) → emitHEntries opts es ind = .error (serErr t r)) ∧
    (∀ es : List (String × HostValue), sizeOf es ≤ N → ∀ opts ind, firstOpaqueE es = none →
       ∃ ls, emitHEntries opts es ind = .ok ls) := by
  induction N with
  | zero =>
    refine ⟨fun v hs => ?_, fun v hs => ?_, fun xs hs => ?_, fun xs hs => ?_,
      fun es hs => ?_, fun es hs => ?_⟩ <;>
      first
      | (cases v <;> simp_arith at hs)
      | (cases xs <;> simp_arith at hs)
      | (cases es <;> simp_arith at hs)
  | succ n ih =>
    obtain ⟨ihVe, ihVo, ihLe, ihLo, ihEe, ihEo⟩ := ih
    refine ⟨?_, ?_, ?_, ?_, ?_, ?_⟩
    · intro v hs opts ind t r h
      cases v with
      | hobj t0 r0 =>
        have h' : (t0, r0) = (t, r) := Option.some.inj h
        cases h'
        rfl
      | hseq xs =>
        have h' : firstOpaqueL xs = some (t, r) := h
        have hx : sizeOf xs ≤ n := by simp_arith at hs; omega
        cases xs with
        | nil => cases h'
        | cons x xs2 => exact ihLe (x :: xs2) hx opts ind t r h'
      | hmap es =>
        have h' : firstOpaqueE es = some (t, r) := h
        have hx : sizeOf es ≤ n := by simp_arith at hs; omega
        cases es with
        | nil => cases h'
        | cons e es2 => exact ihEe (e :: es2) hx opts ind t r h'
      | hnull => cases h
      | hbool b => cases h
      | hint i => cases h
      | hstr s => cases h
      | hdate y mo d => cases h
      | hdatetime d => cases h
    · intro v hs opts ind h
      cases v with
      | hobj t0 r0 => cases h
      | hseq xs =>
        have h' : firstOpaqueL xs = none := h
        have hx : sizeOf xs ≤ n := by simp_arith at hs; omega
        cases xs with
        | nil => exact ⟨_, rfl⟩
        | cons x xs2 =>
          obtain ⟨ls, hok⟩ := ihLo (x :: xs2) hx opts ind h'
          exact ⟨ls, hok⟩
      | hmap es =>
        have h' : firstOpaqueE es = none := h
        have hx : sizeOf es ≤ n := by simp_arith at hs; omega
        cases es with
        | nil => exact ⟨_, rfl⟩
        | cons e es2 =>
          obtain ⟨ls, hok⟩ := ihEo (e :: es2) hx opts ind h'
          exact ⟨ls, hok⟩
      | hnull => exact ⟨_, rfl⟩
      | hbool b => exact ⟨_, rfl⟩
      | hint i => exact ⟨_, rfl⟩
      | hstr s => exact ⟨_, rfl⟩
      | hdate y mo d => exact ⟨_, rfl⟩
      | hdatetime d => exact ⟨_, rfl⟩
    · intro xs hs opts ind t r h
      cases xs with
      | nil => cases h
      | cons x xs2 =>
        have hx : sizeOf x ≤ n := by simp_arith at hs; omega
        have hx2 : sizeOf xs2 ≤ n := by simp_arith at hs; omega
        rw [emitHItems]
        cases hfx : firstOpaque x with
        | some p =>
          obtain ⟨t0, r0⟩ := p
          have heq : (t0, r0) = (t, r) := by
            rw [firstOpaqueL, hfx] at h
            exact Option.some.inj h
          cases heq
          simp only [ihVe x hx opts (ind + 2) t r hfx]
        | none =>
          have h' : firstOpaqueL xs2 = some (t, r) := by
            rw [firstOpaqueL, hfx] at h
            exact h
          obtain ⟨ls, hok⟩ := ihVo x hx opts (ind + 2) hfx
          simp only [hok, ihLe xs2 hx2 opts ind t r h']
    · intro xs hs opts ind h
      cases xs with
      | nil => exact ⟨[], rfl⟩
      | cons x xs2 =>
        have hx : sizeOf x ≤ n := by simp_arith at hs; omega
        have hx2 : sizeOf xs2 ≤ n := by simp_arith at hs; omega
        have hfx : firstOpaque x = none := by
          rw [firstOpaqueL] at h
          cases hq : firstOpaque x with
          | none => rfl
          | some p => rw [hq] at h; cases h
        have h' : firstOpaqueL xs2 = none := by
          rw [firstOpaqueL, hfx] at h
          exact h
        obtain ⟨ls, hok⟩ := ihVo x hx opts (ind + 2) hfx
        obtain ⟨ls2, hok2⟩ := ihLo xs2 hx2 opts ind h'
        rw [emitHItems]
        simp only [hok, hok2]
        by_cases hcm : (!opts.compact && isMapH x) = true
        · rw [if_pos hcm]
          exact ⟨_, rfl⟩
        · rw [if_neg hcm]
          cases ls with
          | nil => exact ⟨_, rfl⟩
          | cons l0 ls1 =>
            obtain ⟨li, c⟩ := l0
            exact ⟨_, rfl⟩
    · intro es hs opts ind t r h
      cases es with
      | nil => cases h
      | cons e es2 =>
        obtain ⟨k, w⟩ := e
        have hw : sizeOf w ≤ n := by simp_arith at hs; omega
        have hes2 : sizeOf es2 ≤ n := by simp_arith at hs; omega
        rw [emitHEntries]
        cases hfw : firstOpaque w with
        | some p =>
          obtain ⟨t0, r0⟩ := p
          have heq : (t0, r0) = (t, r) := by
            rw [firstOpaqueE, hfw] at h
            exact Option.some.inj h
          cases heq
          simp only [ihVe w hw opts (ind + 2) t r hfw]
        | none =>
          have h' : firstOpaqueE es2 = some (t, r) := by
            rw [firstOpaqueE, hfw] at h
            exact h
          obtain ⟨ls, hok⟩ := ihVo w hw opts (ind + 2) hfw
          simp only [hok, ihEe es2 hes2 opts ind t r h']
    · intro es hs opts ind h
      cases es with
      | nil => exact ⟨[], rfl⟩
      | cons e es2 =>
        obtain ⟨k, w⟩ := e
        have hw : sizeOf w ≤ n := by simp_arith at hs; omega
        have hes2 : sizeOf es2 ≤ n := by simp_arith at hs; omega
        have hfw : firstOpaque w = none := by
          rw [firstOpaqueE] at h
          cases hq : firstOpaque w with
          | none => rfl
          | some p => rw [hq] at h; cases h
        have h' : firstOpaqueE es2 = none := by
          rw [firstOpaqueE, hfw] at h
          exact h
        obtain ⟨ls, hok⟩ := ihVo w hw opts (ind + 2) hfw
        obtain ⟨ls2, hok2⟩ := ihEo es2 hes2 opts ind h'
        rw [emitHEntries]
        simp only [hok, hok2]
        by_cases hin : isInlineH opts w = true
        · rw [if_pos hin]
          exact ⟨_, rfl⟩
        · rw [if_neg hin]
          by_cases hbs : isBlockStr opts w = true
          · rw [if_pos hbs]
            cases ls with
            | nil => exact ⟨_, rfl⟩
            | cons l0 ls1 =>
              obtain ⟨li, c⟩ := l0
              exact ⟨_, rfl⟩
          · rw [if_neg hbs]
            exact ⟨_, rfl⟩

/-- Round trip over the modelled fragment only: for a text the modelled
block-structured loads accepts (timestamp resolution off), dumping the
loaded node and loading the dumped text returns the same node.  This
does not reach the spec's full round-trip property, whose domain is
every valid YAML text. -/
theorem block_roundtrip (t : String) (v : Node) (h : loads false t = some v) :
    ∃ s, dumps defaultOpts (nodeToHost v) = .ok s ∧ loads false s = some v :=
  ⟨dumpN v, dumps_nodeToHost v, loads_dumpN false v (loads_false_dtFree t v h)⟩

theorem block_roundtrip_check :
    loads false "a: 1" = some (.map [("a", .int 1)]) ∧
    ∃ s, dumps defaultOpts (nodeToHost (.map [("a", .int 1)])) = .ok s ∧
      loads false s = some (.map [("a", .int 1)]) :=
  ⟨rfl, block_roundtrip "a: 1" (.map [("a", .int 1)]) rfl⟩

/-! ### The claims -/

/-- C2: loading the empty string succeeds and yields exactly the single
null value, with or without timestamp resolution. -/
theorem C2_empty_null : loads false "" = some Node.null ∧ loads true "" = some Node.null :=
  ⟨rfl, rfl⟩

/-- C3: with timestamp parsing enabled, a timezone tail is recognized as
`Z` after any spacing, as `z` only after at least one space, and as a
sign with one- or two-digit hours and optional `:MM`; hence
`2001-12-15T02:59:43z` loads as the plain string while the `Z` variant
loads as the UTC date-time 2001-12-15 02:59:43. -/
theorem C3_timestamp_tz :
    (∀ k, parseTsTz (List.replicate k ' ' ++ ['Z']) = some (some 0)) ∧
    (∀ k, parseTsTz (List.replicate k ' ' ++ ['z']) =
       if 1 ≤ k then some (some 0) else none) ∧
    parseTsTz ['+', '5'] = some (some 300) ∧
    parseTsTz ['+', '0', '5', ':', '3', '0'] = some (some 330) ∧
    parseTsTz ['+', '0', '0', '0'] = none ∧
    loads true "2001-12-15T02:59:43z" = some (.str "2001-12-15T02:59:43z") ∧
    loads true "2001-12-15T02:59:43Z" =
      some (.datetime ⟨2001, 12, 15, 2, 59, 43, 0, some 0⟩) :=
  ⟨parseTsTz_sp_Z, parseTsTz_sp_z, rfl, rfl, rfl, rfl, rfl⟩

/-- C4: an explicit `!!str` tag forces the string kind and bypasses
implicit resolution: `!!str 2002-04-28` loads as the string even with
timestamp parsing enabled, while the untagged scalar loads as a date. -/
theorem C4_tag_forces_str :
    (∀ (dt : Bool) (cs : List Char),
       resolveScalar (some .tstr) dt cs = .str (String.mk cs)) ∧
    loads true "!!str 2002-04-28" = some (.str "2002-04-28") ∧
    loads true "2002-04-28" = some (.date 2002 4 28) :=
  ⟨fun _ _ => rfl, rfl, rfl⟩

/-- C5: decode errors format as `YAML parse error at line L, column C`
then a newline and the description for position-only errors, and in the
excerpt form reproduce the source line with the caret aligned under
column C; the `[ [ [ [` scenario reports line 2 column 1 with the
expected description, and the unclosed-quote scenario reports line 1
column 7 in the excerpt form. -/
theorem C5_error_format :
    (∀ (L Cn : Nat) (d : String),
       formatErr ⟨L, Cn, none, d⟩ =
         "YAML parse error at line " ++ String.mk (natDigits L) ++ ", column " ++
           String.mk (natDigits Cn) ++ "\n" ++ d) ∧
    (∀ (L Cn : Nat) (src d : String),
       formatErr ⟨L, Cn, some src, d⟩ =
         "YAML parse error at line " ++ String.mk (natDigits L) ++ ", column " ++
           String.mk (natDigits Cn) ++ "\n" ++
           (String.mk (List.replicate (natDigits L).length ' ') ++ " |") ++ "\n" ++
           String.mk (natDigits L) ++ " | " ++ src ++ "\n" ++
           (String.mk (List.replicate (natDigits L).length ' ') ++ " |") ++ " " ++
           String.mk (List.replicate (Cn - 1) ' ') ++ "^" ++ "\n" ++ d) ∧
    formatErr flowNodeErr =
      "YAML parse error at line 2, column 1\nwhile parsing a node, did not find expected node content" ∧
    formatErr unclosedQuoteErr =
      "YAML parse error at line 1, column 7\n  |\n1 | name: \"unclosed\n  |       ^\nwhile scanning a quoted scalar, found unexpected end of stream" :=
  ⟨fun _ _ _ => rfl, fun _ _ _ _ => rfl, rfl, rfl⟩

/-- C6: a value with no representer anywhere in the tree makes the dump
fail with `Cannot serialize <type-name> (<value-repr>) to YAML` and no
text is produced — the whole dump aborts even when the offending value is
nested under encodable siblings. -/
theorem C6_encode_error (opts : DumpOpts) (v : HostValue) (t r : String)
    (h : firstOpaque v = some (t, r)) :
    dumps opts v = .error ("Cannot serialize " ++ t ++ " (" ++ r ++ ") to YAML") := by
  have he := (emitH_opaque_aux (sizeOf v)).1 v le_rfl opts 0 t r h
  rw [dumps, he]
  rfl

theorem C6_encode_error_witness :
    firstOpaque (.hmap [("valid",
        .hmap [("invalid", .hobj "<class 'object'>" "<object object at 0x7f>")])]) =
      some ("<class 'object'>", "<object object at 0x7f>") ∧
    dumps defaultOpts (.hmap [("valid",
        .hmap [("invalid", .hobj "<class 'object'>" "<object object at 0x7f>")])]) =
      .error "Cannot serialize <class 'object'> (<object object at 0x7f>) to YAML" :=
  ⟨rfl, C6_encode_error defaultOpts _ "<class 'object'>" "<object object at 0x7f>" rfl⟩

/-- C7 (amended): timestamps dump as RFC-3339-compatible text, always
double quoted, a zero UTC offset rendered as `Z`; trailing zero
fractional digits are trimmed only down to a minimum width — one digit
for UTC or naive values (`.1` in the UTC fixture), two digits for
nonzero offsets (`.10` in the `-05:00` fixture stays) — and the trimmed
text never ends in a removable zero. -/
theorem C7_timestamp_dump :
    dumps defaultOpts (.hdatetime ⟨2001, 12, 15, 2, 59, 43, 100000, some 0⟩) =
      .ok "---\n\"2001-12-15T02:59:43.1Z\"" ∧
    dumps defaultOpts (.hdatetime ⟨2001, 12, 14, 21, 59, 43, 100000, some (-300)⟩) =
      .ok "---\n\"2001-12-14T21:59:43.10-05:00\"" ∧
    tzTxt (some 0) = ['Z'] ∧
    (∀ d : DateTimeV, ∃ mid, dtTxt d = '"' :: (mid ++ ['"'])) ∧
    (∀ (m : Nat) (cs : List Char) (c0 : Char) (r : List Char),
       dropLead0 m cs.reverse = c0 :: r → m < r.length + 1 → c0 ≠ '0') :=
  ⟨rfl, rfl, rfl, fun _ => ⟨_, rfl⟩,
   fun m cs c0 r h hm => dropLead0_head_ne_zero m cs.reverse c0 r h hm⟩

theorem C7_timestamp_dump_witness :
    dropLead0 1 (List.reverse ['1', '2', '0']) = '2' :: ['1'] ∧ ('2' : Char) ≠ '0' :=
  ⟨rfl, C7_timestamp_dump.2.2.2.2 1 ['1', '2', '0'] '2' ['1'] rfl (by decide)⟩

/-- C7 counterexample to the unqualified trimming clause: the repository's
own fixture value 2001-12-14 21:59:43.100000 at offset -05:00 dumps with
the fractional text `.10`, which still ends in a zero fractional digit —
trailing zeros are not trimmed past two digits for a nonzero offset. -/
theorem C7_trailing_zero_kept :
    dumps defaultOpts (.hdatetime ⟨2001, 12, 14, 21, 59, 43, 100000, some (-300)⟩) =
      .ok "---\n\"2001-12-14T21:59:43.10-05:00\"" ∧
    fracTxt 2 100000 = ['.', '1', '0'] ∧
    endsWithC '0' (fracTxt 2 100000) = true :=
  ⟨rfl, rfl, rfl⟩

/-- C8 (amended): a plain string containing newlines dumps under the
multiline-strings option as a block literal (`|-` header when the string
has no final newline) and under the default options as an escaped
double-quoted scalar — in both cases after the `---` document-start line
that every dump emits. -/
theorem C8_multiline_policy :
    dumps ⟨true, true⟩ (.hmap [("key", .hstr "line1\nline2")]) =
      .ok "---\nkey: |-\n  line1\n  line2" ∧
    dumps defaultOpts (.hmap [("key", .hstr "line1\nline2")]) =
      .ok "---\nkey: \"line1\\nline2\"" ∧
    (∀ (c : Bool) (s : String) (ind : Nat), s.data.contains '\n' = true →
       emitH ⟨c, true⟩ (.hstr s) ind = .ok (blockLines s.data ind)) ∧
    (∀ (c : Bool) (s : String) (ind : Nat),
       emitH ⟨c, false⟩ (.hstr s) ind = .ok [(ind, strTxt s)]) ∧
    (∀ (cs : List Char) (ind : Nat), endsWithC '\n' cs = false →
       blockLines cs ind = (ind, ['|', '-']) :: (splitNl cs).map (fun l => (ind, l))) := by
  refine ⟨rfl, rfl, ?_, ?_, ?_⟩
  · intro c s ind h
    rw [emitH]
    have hu : useBlock ⟨c, true⟩ s.data = true := by
      rw [useBlock]
      show (true && s.data.contains '\n') = true
      rw [Bool.true_and, h]
    rw [hu]
    simp
  · intro c s ind
    rw [emitH]
    have hu : useBlock ⟨c, false⟩ s.data = false := by simp [useBlock]
    rw [hu]
    simp
  · intro cs ind h
    rw [blockLines, if_neg (by simp [h])]

theorem C8_multiline_policy_witness :
    emitH ⟨true, true⟩ (.hstr "a\nb") 0 = .ok (blockLines ['a', '\n', 'b'] 0) ∧
    blockLines ['a', '\n', 'b'] 0 =
      (0, ['|', '-']) :: (splitNl ['a', '\n', 'b']).map (fun l => (0, l)) :=
  ⟨C8_multiline_policy.2.2.1 true "a\nb" 0 rfl,
   C8_multiline_policy.2.2.2.2 ['a', '\n', 'b'] 0 rfl⟩

/-- C8 counterexample to the claim's literal output texts: the dumped
document carries the `---` document-start line, so the multiline dump is
not the bare `key: |-` text and the default dump is not the bare quoted
line the claim states. -/
theorem C8_prefix_kept :
    dumps ⟨true, true⟩ (.hmap [("key", .hstr "line1\nline2")]) =
      .ok "---\nkey: |-\n  line1\n  line2" ∧
    ("---\nkey: |-\n  line1\n  line2" : String) ≠ "key: |-\n  line1\n  line2" ∧
    dumps defaultOpts (.hmap [("key", .hstr "line1\nline2")]) =
      .ok "---\nkey: \"line1\\nline2\"" ∧
    ("---\nkey: \"line1\\nline2\"" : String) ≠ "key: \"line1\\nline2\"" :=
  ⟨rfl, by decide, rfl, by decide⟩

/-- C9: integers of unbounded magnitude dump with their full decimal
digit sequence and sign — `10 ^ k` renders as a one followed by exactly
`k` zeros for every `k`, its negation with a leading minus — and every
integer round-trips exactly through dump and load. -/
theorem C9_bigint :
    (∀ k : Nat, intChars ((10 : Int) ^ k) = '1' :: List.replicate k '0') ∧
    (∀ k : Nat, intChars (-((10 : Int) ^ k)) = '-' :: '1' :: List.replicate k '0') ∧
    (∀ i : Int, ∃ s, dumps defaultOpts (nodeToHost (.int i)) = .ok s ∧
       loads false s = some (.int i)) :=
  ⟨intChars_pow10, intChars_neg_pow10,
   fun i => ⟨dumpN (.int i), dumps_nodeToHost (.int i), loads_dumpN false (.int i) rfl⟩⟩

/-- C10: every successful dump's text begins with the document-start
marker `---` followed by a newline, whatever the options and value. -/
theorem C10_document_start (opts : DumpOpts) (v : HostValue) (s : String)
    (h : dumps opts v = .ok s) : s.data.take 4 = ['-', '-', '-', '\n'] := by
  rw [dumps] at h
  cases he : emitH opts v 0 with
  | error e => rw [he] at h; cases h
  | ok lines => rw [he] at h; cases h; rfl

theorem C10_document_start_witness :
    dumps defaultOpts (.hint 5) = .ok "---\n5" ∧
    ("---\n5" : String).data.take 4 = ['-', '-', '-', '\n'] :=
  ⟨rfl, C10_document_start defaultOpts (.hint 5) "---\n5" rfl⟩

end YamlRs
